import Mathlib

/-!
Shallow embedding of the HNSW index construction and query code of the
`instant-distance` repository (files `src/instant-distance/src/lib.rs`,
`src/instant-distance/src/contiguous.rs`,
`src/instant-distance/src/contiguous_types.rs`).

Modelling conventions:
* `PointId`s are natural numbers; the invalid sentinel `u32::MAX` is the
  constant `INVALID`.
* Distances are integers (`ℤ`): the source computes `f32` distances and
  uses them only through the total order `OrderedFloat`; every claim is
  order-theoretic, so any linearly ordered value type is a faithful
  stand-in, and the concrete inputs below use squared-Euclidean integer
  distances, which `f32` represents exactly. The layer-decay constant `ml`
  stays rational.
* The file `src/instant-distance/src/types.rs` is referenced by the crate
  but absent from the source tree, so the small types it provides
  (`Candidate` ordering, `Visited`, `NearestIter`, `PointId::is_valid`) are
  modelled from the spec where noted.
* A point collection is represented by its pairwise distance function
  `D : ℕ → ℕ → ℤ` over construction-order `PointId`s, plus the count `n`;
  an external query point is represented by its distance function
  `qd : ℕ → ℤ` to each `PointId`.
-/

namespace HnswModel

/-- The parameter `M` from the paper (`const M : usize = 32`). -/
def M : ℕ := 32

/-- The invalid sentinel `PointId(u32::MAX)`. -/
def INVALID : ℕ := 4294967295

/-- Modelled from the spec: `PointId::is_valid` (from the missing
`types.rs`); the sentinel value all-ones means invalid. -/
def isValid (pid : ℕ) : Bool := pid ≠ INVALID

/-- A `(distance, PointId)` pair (`Candidate` from the missing `types.rs`,
distance wrapped in `OrderedFloat`). -/
structure Candidate where
  distance : ℤ
  pid : ℕ
deriving DecidableEq, Repr

/-- Modelled from the spec: the derived lexicographic `Ord` on `Candidate`
(distance first, `PointId` breaking ties). -/
def Candidate.lt (a b : Candidate) : Prop :=
  a.distance < b.distance ∨ (a.distance = b.distance ∧ a.pid < b.pid)

instance : DecidablePred fun p : Candidate × Candidate => Candidate.lt p.1 p.2 :=
  fun _ => by unfold Candidate.lt; infer_instance

instance Candidate.decLt (a b : Candidate) : Decidable (Candidate.lt a b) := by
  unfold Candidate.lt; infer_instance

/-- Boolean form of the candidate order, for executable list operations. -/
def Candidate.ltb (a b : Candidate) : Bool := decide (Candidate.lt a b)

/-- Sorted insertion into the candidate min-heap. The source uses
`BinaryHeap<Reverse<Candidate>>`; since all keys in the heap are distinct
(each `PointId` is pushed at most once per search phase), the heap's
observable pop sequence equals popping the head of a list kept sorted in
increasing candidate order. -/
def heapPush (c : Candidate) : List Candidate → List Candidate
  | [] => [c]
  | x :: xs => if Candidate.ltb x c then x :: heapPush c xs else c :: x :: xs

/-- The search scratch state (`struct Search`). The `working` and
`discarded` buffers are cleared at the start of `select_heuristic`, fully
drained before it returns when used, and never read elsewhere, so they are
modelled as locals of that function. -/
structure Search where
  visited : List ℕ
  candidates : List Candidate
  nearest : List Candidate
  ef : ℕ
deriving DecidableEq, Repr

/-- Fresh scratch (`Search::default`, also `Search::new`): empty state with
`ef = 1`. -/
def Search.mk0 : Search := ⟨[], [], [], 1⟩

/-- Resets the state to be ready for a new search (`Search::reset`).
Clears everything except `ef`. -/
def Search.reset (s : Search) : Search :=
  { visited := [], candidates := [], nearest := [], ef := s.ef }

/-- Track node `pid` as a potential new neighbor (`Search::push`).
`qd pid` is `point.distance(points[pid])`. The `Ok(_) => unreachable!()`
arm of the source's `binary_search` (the new candidate already being
present in `nearest`) aborts the program; it is modelled as the identity
and is impossible on every state whose `nearest` pids are visited, which
the callers maintain. On sorted `nearest` the binary-search insertion
index is the number of strictly smaller candidates. -/
def Search.push (s : Search) (pid : ℕ) (qd : ℕ → ℤ) : Search :=
  if pid ∈ s.visited then s
  else
    let s' : Search := { s with visited := pid :: s.visited }
    let c : Candidate := ⟨qd pid, pid⟩
    if c ∈ s'.nearest then s'
    else
      let idx := s'.nearest.countP fun x => Candidate.ltb x c
      if idx < s'.ef then
        { s' with
          nearest := s'.nearest.insertIdx idx c
          candidates := heapPush c s'.candidates }
      else s'

/-- Modelled from the spec: `NearestIter` (from the missing `types.rs`)
yields the neighbor `PointId`s of a row, skipping invalid sentinels. -/
def nearestRow (row : List ℕ) : List ℕ := row.filter fun e => isValid e

/-- The per-candidate neighbor links considered by one search step:
`layer.nearest_iter(candidate.pid).take(links)`. -/
def considered (view : ℕ → List ℕ) (links pid : ℕ) : List ℕ :=
  (nearestRow (view pid)).take links

/-- One search over a layer (`Search::search`): pop the nearest candidate,
stop when it cannot improve the frontier, otherwise push its first `links`
valid neighbors and truncate `nearest` to `ef`. `view pid` is the layer's
neighbor row of `pid`. The loop is fueled; every lemma below either holds
for all fuel values or evaluates a concrete run with ample fuel. -/
def Search.searchLayer (qd : ℕ → ℤ) (view : ℕ → List ℕ) (links : ℕ) :
    ℕ → Search → Search
  | 0, s => s
  | fuel + 1, s =>
    match s.candidates with
    | [] => s
    | c :: rest =>
      let s' : Search := { s with candidates := rest }
      let go : Search :=
        let s'' := (considered view links c.pid).foldl
          (fun st pid => st.push pid qd) s'
        Search.searchLayer qd view links fuel
          { s'' with nearest := s''.nearest.take s''.ef }
      match s.nearest.getLast? with
      | some furthest => if furthest.distance < c.distance then s' else go
      | none => go

/-- Lower the search to the next level (`Search::cull`): `nearest` becomes
the enter set seeding `candidates` and `visited`. `nearest` is sorted, so
re-pushing it into the heap yields itself. -/
def Search.cull (s : Search) : Search :=
  { s with candidates := s.nearest, visited := s.nearest.map Candidate.pid }

/-- Selection of neighbors for insertion (`Search::select_simple`):
returns `nearest` unchanged. -/
def Search.select_simple (s : Search) : List Candidate := s.nearest

/-- Heuristic parameters (`struct Heuristic`). -/
structure Heuristic where
  extend_candidates : Bool
  keep_pruned : Bool
deriving DecidableEq, Repr

/-- The default heuristic: `extend_candidates = false`, `keep_pruned = true`. -/
def Heuristic.default0 : Heuristic := ⟨false, true⟩

/-- The candidate-gathering pass of `select_heuristic` when
`extend_candidates` is set: walk `nearest` in order, appending each
candidate to `working` and, after it, every neighbor-of-neighbor not yet
visited (marking it visited), with its distance to the query point. -/
def extendWorking (qd : ℕ → ℤ) (view : ℕ → List ℕ) :
    List Candidate → List ℕ → List Candidate → List ℕ × List Candidate
  | [], visited, working => (visited, working)
  | c :: rest, visited, working =>
    let step := (nearestRow (view c.pid)).foldl
      (fun (acc : List ℕ × List Candidate) hop =>
        if hop ∈ acc.1 then acc
        else (hop :: acc.1, acc.2 ++ [⟨qd hop, hop⟩]))
      (visited, working ++ [c])
    extendWorking qd view rest step.1 step.2

/-- The admission walk of `select_heuristic`: walk `working` nearest-first;
stop once `nearest` holds `M * 2` entries; admit a candidate into
`nearest` only if no already-admitted result is strictly closer to it than
it is to the query, otherwise move it to `discarded`. `D` is the pairwise
distance between stored points. -/
def admitLoop (D : ℕ → ℕ → ℤ) :
    List Candidate → List Candidate → List Candidate →
    List Candidate × List Candidate
  | [], near, disc => (near, disc)
  | c :: rest, near, disc =>
    if M * 2 ≤ near.length then (near, disc)
    else if near.all fun r => !decide (D c.pid r.pid < c.distance) then
      admitLoop D rest (near ++ [c]) disc
    else admitLoop D rest near (disc ++ [c])

/-- The `keep_pruned` pass of `select_heuristic`: drain `discarded` in
order, appending to `nearest` until it reaches `M * 2` entries. -/
def keepPrunedLoop : List Candidate → List Candidate → List Candidate
  | [], near => near
  | c :: rest, near =>
    if M * 2 ≤ near.length then near else keepPrunedLoop rest (near ++ [c])

/-- Heuristically sort and truncate neighbors (`Search::select_heuristic`).
`qd` is the query point's distance function (`point.distance(..)`), `D`
the pairwise distance between stored points, `view` the layer rows used
for the `extend_candidates` hops. The source returns `&self.nearest`; the
model returns the whole state, whose `nearest` field is that result
(`candidates` is untouched; `visited` gains the hops when extending). -/
def Search.select_heuristic (s : Search) (D : ℕ → ℕ → ℤ) (qd : ℕ → ℤ)
    (view : ℕ → List ℕ) (params : Heuristic) : Search :=
  let vw : List ℕ × List Candidate :=
    if params.extend_candidates then extendWorking qd view s.nearest s.visited []
    else (s.visited, s.nearest)
  let working :=
    if params.extend_candidates then
      vw.2.mergeSort fun a b => !Candidate.ltb b a
    else vw.2
  let nd := admitLoop D working [] []
  let near := if params.keep_pruned then keepPrunedLoop nd.2 nd.1 else nd.1
  { s with visited := vw.1, nearest := near }

/-- Re-select the neighbor set of an existing node
(`Search::add_neighbor_heuristic`): reset, seed with the new node and the
node's current neighbors, then run heuristic selection with the node's own
point `q` as the query. -/
def Search.add_neighbor_heuristic (s : Search) (D : ℕ → ℕ → ℤ) (new : ℕ)
    (current : List ℕ) (q : ℕ) (view : ℕ → List ℕ) (params : Heuristic) :
    Search :=
  let s1 := s.reset.push new (D q)
  let s2 := current.foldl (fun st pid => st.push pid (D q)) s1
  s2.select_heuristic D (D q) view params

/-- Per-layer metadata record (`struct LayerMeta`); the source's `end`
field is named `stop` because `end` is a Lean keyword. -/
structure LayerMeta where
  max : ℕ
  total : ℕ
  start : ℕ
  stop : ℕ
deriving DecidableEq, Repr

instance : Inhabited LayerMeta := ⟨⟨0, 0, 0, 0⟩⟩

/-- The truncation `(num as f32 * ml) as usize` of `Meta::new`: Rust's
float-to-integer cast rounds toward zero and saturates at `0` for a
negative product, so for `ml = p / q` in lowest terms this is
`⌊num * ml⌋ = (num * p) / q` when `ml ≥ 0` and `0` otherwise. The model
takes `ml` exactly rational where the source rounds the `f32` product to
the nearest float before truncating. -/
def ratTruncNat (num : ℕ) (ml : ℚ) : ℕ := ((num : ℤ) * ml.num).toNat / ml.den

/-- The clamped next-layer node count of `Meta::new`:
`next = (num as f32 * ml) as usize`, set to `0` when below `M`. -/
def nextCount (ml : ℚ) (num : ℕ) : ℕ :=
  let next0 := ratTruncNat num ml
  if next0 < M then 0 else next0

/-- The loop body of `Meta::new`, fueled: starting from `num` nodes,
record `{max: num - next, total: num, start, end}` per layer, the neighbor
offset advancing by `num * M * 2` on layer 0 and `num * M` above; stop
when the clamped `next` is `0`. `none` means the fuel ran out, i.e. the
source loop has not terminated within that many iterations. -/
def metaLoop (ml : ℚ) : ℕ → ℕ → ℕ → List LayerMeta → Option (List LayerMeta)
  | 0, _, _, _ => none
  | fuel + 1, num, neighbors, inner =>
    let next := nextCount ml num
    let start := neighbors
    let stop := neighbors + num * M * (if inner.length = 0 then 2 else 1)
    let inner' := inner ++ [⟨num - next, num, start, stop⟩]
    if next = 0 then some inner' else metaLoop ml fuel next stop inner'

/-- `Meta::new(ml, num)`. When `0 < ml < 1` the node count strictly
decreases each iteration, so `num + 1` units of fuel always suffice;
`none` therefore exhibits non-termination of the source loop (see
`metaLoop_ml_one_none`). -/
def Meta.new (ml : ℚ) (num : ℕ) : Option (List LayerMeta) :=
  metaLoop ml (num + 1) num 0 []

/-- `Meta::neighbors`: the `end` of the last layer record. -/
def metaNeighbors (meta : List LayerMeta) : ℕ :=
  ((meta.getLast?).map LayerMeta.stop).getD 0

/-- `Meta::points(layer)`: the range `max(total - max, 1) .. total` of
`PointId`s whose highest layer is `layer`, as `(start, stop)`. -/
def metaPoints (meta : List LayerMeta) (layer : ℕ) : ℕ × ℕ :=
  let r := meta.getD layer default
  (Nat.max (r.total - r.max) 1, r.total)

/-- `Meta::descending`: layer ids from highest down to `0`. -/
def metaDescending (meta : List LayerMeta) : List ℕ :=
  (List.range meta.length).reverse

/-- `ZeroNode::rewrite`: overwrite the row with the iterator's items; once
the iterator is exhausted, blank remaining valid slots and stop at the
first already-invalid slot (the tail beyond it is left untouched). -/
def ZeroNode.rewrite : List ℕ → List ℕ → List ℕ
  | [], _ => []
  | _slot :: rest, p :: ps => p :: ZeroNode.rewrite rest ps
  | slot :: rest, [] =>
    if isValid slot then INVALID :: ZeroNode.rewrite rest [] else slot :: rest

/-- `ZeroNode::insert(idx, pid)`: out-of-range `idx` leaves the row
unchanged; a valid slot at `idx` is shifted right by one within the first
`M * 2` slots (dropping slot `M * 2 - 1`) before writing; an invalid slot
is simply overwritten. Rows in the zero layer always have `M * 2` slots
(the source's `copy_within(idx..M * 2 - 1, idx + 1)` assumes it). -/
def ZeroNode.insert (row : List ℕ) (idx pid : ℕ) : List ℕ :=
  if row.length ≤ idx then row
  else if isValid (row.getD idx INVALID) then
    row.take idx ++ pid :: ((row.drop idx).take (M * 2 - 1 - idx) ++ row.drop (M * 2))
  else row.set idx pid

/-- `ZeroNode::set(idx, pid)`. -/
def ZeroNode.set (row : List ℕ) (idx pid : ℕ) : List ℕ := row.set idx pid

/-- The comparator closure the simple (non-heuristic) reciprocal-link
path passes to `binary_search_by`, translated verbatim from the source:
an invalid `third` returns `Ordering::Greater`, and a valid one returns
`distance.cmp(&old.distance(&points[third]))` — the new candidate's
distance `d` compared against the probe's key, i.e. target-versus-probe,
which is inverted with respect to `binary_search_by`'s probe-versus-target
contract. `key e` is `points[pid].distance(points[e])` and `d` the
precomputed `candidate.distance`. -/
def insertCmp (key : ℕ → ℤ) (d : ℤ) (third : ℕ) : Ordering :=
  if isValid third then
    if d < key third then Ordering.lt
    else if d = key third then Ordering.eq
    else Ordering.gt
  else Ordering.gt

/-- `slice::binary_search_by`'s search loop (the std midpoint loop:
probe `mid = left + (right - left) / 2`; `Less` moves `left` past `mid`,
`Greater` moves `right` to `mid`, `Equal` returns `mid`), fueled; the
source collapses `Ok` and `Err` with `.unwrap_or_else(|e| e)`, so the
model returns the index directly. Because the in-repo comparator is not
monotone over a sorted row, the exact probe sequence matters; every fact
proven below (the index stays within the valid prefix, all-`Less` rows
yield the length, all-`Greater` rows yield `0`) also holds of the other
historical std variant of the loop. -/
def bsLoop (f : ℕ → Ordering) (row : List ℕ) : ℕ → ℕ → ℕ → ℕ
  | 0, left, _ => left
  | fuel + 1, left, right =>
    if left < right then
      let mid := left + (right - left) / 2
      match f (row.getD mid INVALID) with
      | Ordering.lt => bsLoop f row fuel (mid + 1) right
      | Ordering.gt => bsLoop f row fuel left mid
      | Ordering.eq => mid
    else left

/-- The index the simple reciprocal-link path inserts at:
`row.binary_search_by(closure).unwrap_or_else(|e| e)`. The fuel
`row.length + 1` is ample — the probed interval shrinks every
iteration. -/
def bsearchIdx (f : ℕ → Ordering) (row : List ℕ) : ℕ :=
  bsLoop f row (row.length + 1) 0 row.length

/-- The mutable construction state: the zero-layer rows (`M * 2` slots
each, one per point, guarded by per-row locks in the source — the build
loop is the sequential one, so lock effects are invisible) and the upper
layer slices (`upper[i]` holds the `M`-slot rows of `LayerId (i + 1)`).
The source keeps all rows in one flat arena split by `Meta` offsets;
row-major layout makes the two representations isomorphic. -/
structure BuildState where
  zero : List (List ℕ)
  upper : List (List (List ℕ))
deriving DecidableEq, Repr

/-- The zero layer as a row lookup (`zero.as_slice()` indexing). -/
def zeroView (st : BuildState) (pid : ℕ) : List ℕ := st.zero.getD pid []

/-- An upper layer slice as a row lookup (`upper[i].as_ref()`); out-of-range
access panics in the source and yields the empty row here. -/
def upperView (st : BuildState) (i pid : ℕ) : List ℕ :=
  (st.upper.getD i []).getD pid []

/-- The per-layer descent inside `insert`: walking `meta.descending()`,
set `ef` to `ef_construction` at or below the insertion layer `L` and to
`1` above it; above `L` search the upper layer `cur` then `cull`; at `L`
(and the first `cur ≤ L` in general) search the zero layer and break.
`num` is the link limit computed once from `L` by the caller. -/
def insertDescend (D : ℕ → ℕ → ℤ) (st : BuildState) (efc p L num fuel : ℕ) :
    List ℕ → Search → Search
  | [], s => s
  | cur :: rest, s =>
    let s1 : Search := { s with ef := if cur ≤ L then efc else 1 }
    if L < cur then
      let s2 := Search.searchLayer (D p) (upperView st (cur - 1)) num fuel s1
      insertDescend D st efc p L num fuel rest s2.cull
    else
      Search.searchLayer (D p) (zeroView st) num fuel s1

/-- The reciprocal-link loop of `insert` over the selected candidates
(`for (i, candidate) in found.iter().enumerate()`): with the heuristic,
re-select the neighbor's row via `add_neighbor_heuristic` and `rewrite`
it; without, shift-insert the new id at the binary-search index; in both
cases record the neighbor in slot `i` of the new node's own row. -/
def insertFoundLoop (D : ℕ → ℕ → ℤ) (heuristic : Option Heuristic) (p : ℕ) :
    List (ℕ × Candidate) → BuildState → Search → BuildState × Search
  | [], st, insertion => (st, insertion)
  | (i, c) :: rest, st, insertion =>
    match heuristic with
    | some h =>
      let ins' := insertion.add_neighbor_heuristic D p
        (nearestRow (zeroView st c.pid)) c.pid (zeroView st) h
      let st1 : BuildState := { st with
        zero := st.zero.set c.pid
          (ZeroNode.rewrite (zeroView st c.pid) (ins'.nearest.map Candidate.pid)) }
      let st2 : BuildState := { st1 with
        zero := st1.zero.set p (ZeroNode.set (zeroView st1 p) i c.pid) }
      insertFoundLoop D heuristic p rest st2 ins'
    | none =>
      let idx := bsearchIdx (insertCmp (fun e => D c.pid e) c.distance)
        (zeroView st c.pid)
      let st1 : BuildState := { st with
        zero := st.zero.set c.pid (ZeroNode.insert (zeroView st c.pid) idx p) }
      let st2 : BuildState := { st1 with
        zero := st1.zero.set p (ZeroNode.set (zeroView st1 p) i c.pid) }
      insertFoundLoop D heuristic p rest st2 insertion

/-- The per-candidate link limit of the insertion descent, computed once
from the insertion layer `L`
(`let num = if layer.is_zero() { M * 2 } else { M }`) and passed to every
`search` call of the descent, the final zero-layer one included. -/
def insertNum (L : ℕ) : ℕ := if L = 0 then M * 2 else M

/-- Insert one new node `p` whose maximum layer is `L`
(`Construction::insert` / the `insert` free function): seed the search
with the enter point `PointId(0)`, descend the layers, select neighbors
(simple truncation to `M * 2` or heuristic selection), then connect both
directions. Returns the updated rows and both scratches (returned to the
pool by the caller). -/
def insertPoint (D : ℕ → ℕ → ℤ) (meta : List LayerMeta)
    (efc : ℕ) (heuristic : Option Heuristic) (fuel : ℕ) (st : BuildState)
    (p L : ℕ) (pair : Search × Search) : BuildState × (Search × Search) :=
  let num := insertNum L
  let search0 := (pair.1.reset).push 0 (D p)
  let search1 := insertDescend D st efc p L num fuel (metaDescending meta) search0
  let insertion0 : Search := { pair.2 with ef := efc }
  match heuristic with
  | none =>
    let found := (search1.select_simple).take (M * 2)
    let r := insertFoundLoop D none p found.enum st insertion0
    (r.1, (search1, r.2))
  | some h =>
    let search2 := search1.select_heuristic D (D p) (zeroView st) h
    let r := insertFoundLoop D (some h) p search2.nearest.enum st insertion0
    (r.1, (search2, r.2))

/-- `SearchPool::pop`: reuse a previous scratch pair or create a fresh
one. The pool is a stack (`Vec` popped from the back) modelled head-first. -/
def poolPop : List (Search × Search) → (Search × Search) × List (Search × Search)
  | [] => ((Search.mk0, Search.mk0), [])
  | x :: xs => (x, xs)

/-- A usable scratch pool: the search half of every pair has `ef ≥ 1`, as
every scratch the source itself creates or returns does. The seed push of
the next insertion reads `ef` before the descent overwrites it, so a pool
holding an `ef = 0` scratch would lose the enter point. -/
def PoolOk (pool : List (Search × Search)) : Prop :=
  ∀ pr ∈ pool, 1 ≤ (pr : Search × Search).1.ef

/-- Sequentially insert the points of one layer, threading the build state
and the scratch pool (`nodes[start..end].iter().for_each(...)` in the
serialized loop of `lib.rs`, with each worker popping and pushing the
pool). -/
def insertLayerPoints (D : ℕ → ℕ → ℤ) (meta : List LayerMeta)
    (efc : ℕ) (heuristic : Option Heuristic) (fuel L : ℕ) :
    List ℕ → BuildState → List (Search × Search) →
    BuildState × List (Search × Search)
  | [], st, pool => (st, pool)
  | p :: ps, st, pool =>
    let pr := poolPop pool
    let r := insertPoint D meta efc heuristic fuel st p L pr.1
    insertLayerPoints D meta efc heuristic fuel L ps r.1 (r.2 :: pr.2)

/-- `LayerSliceMut::copy_from_zero`: snapshot the first `stop` zero rows,
truncated to stride `M`, into the rows of `LayerId layer`. -/
def snapshot (st : BuildState) (layer stop : ℕ) : BuildState :=
  let rows := (st.zero.take stop).map fun r => r.take M
  { st with upper := st.upper.set (layer - 1) rows }

/-- The outer construction loop over descending layers: insert every point
of `meta.points(layer)`, then (unless at layer 0, where the source breaks)
snapshot the zero layer into the finished layer's upper slice. -/
def buildLayers (D : ℕ → ℕ → ℤ) (meta : List LayerMeta)
    (efc : ℕ) (heuristic : Option Heuristic) (fuel : ℕ) :
    List ℕ → BuildState → List (Search × Search) →
    BuildState × List (Search × Search)
  | [], st, pool => (st, pool)
  | L :: rest, st, pool =>
    let pr := metaPoints meta L
    let pids := List.range' pr.1 (pr.2 - pr.1)
    let r := insertLayerPoints D meta efc heuristic fuel L pids st pool
    if L = 0 then r
    else buildLayers D meta efc heuristic fuel rest (snapshot r.1 L pr.2) r.2

/-- The built index: `ef_search`, the layer metadata and the neighbor
rows, `layers[0]` being the zero layer (`M * 2`-slot rows) and `layers[i]`
the `M`-slot rows of `LayerId i`. `n` is the number of stored points. -/
structure Hnsw where
  efSearch : ℕ
  n : ℕ
  meta : List LayerMeta
  layers : List (List (List ℕ))
deriving DecidableEq, Repr

/-- Ample fuel for every layer search during a build of `n` points: a
search pops at most `1 + n` candidates in total. -/
def buildFuel (n : ℕ) : ℕ := n + 2

/-- `Hnsw::new` over points given in construction order, with an explicit
initial scratch pool. The RNG shuffle (`rand::SmallRng`, external code) is
abstracted by taking the points already in construction order, so the
caller-order-to-`PointId` remap is the identity `List.range n`; an empty
input returns the empty index, empty meta and empty remap without
building. `none` propagates `Meta::new` fuel exhaustion (impossible for
`0 < ml < 1`). -/
def buildWithPool (D : ℕ → ℕ → ℤ) (n : ℕ) (ml : ℚ) (efc efs : ℕ)
    (heuristic : Option Heuristic) (pool : List (Search × Search)) :
    Option (Hnsw × List ℕ) :=
  if n = 0 then some (⟨efs, 0, [], []⟩, [])
  else
    match Meta.new ml n with
    | none => none
    | some meta =>
      let init : BuildState :=
        ⟨List.replicate n (List.replicate (M * 2) INVALID),
         (meta.drop 1).map fun r => List.replicate r.total (List.replicate M INVALID)⟩
      let res := buildLayers D meta efc heuristic (buildFuel n)
        (metaDescending meta) init pool
      some (⟨efs, n, meta, res.1.zero :: res.1.upper⟩, List.range n)

/-- `Hnsw::new` with the pool in its initial (empty) state. -/
def build (D : ℕ → ℕ → ℤ) (n : ℕ) (ml : ℚ) (efc efs : ℕ)
    (heuristic : Option Heuristic) : Option (Hnsw × List ℕ) :=
  buildWithPool D n ml efc efs heuristic []

/-- Row lookup into a built index's layer (`meta.layer(cur, &neighbors)`). -/
def layerView (h : Hnsw) (cur pid : ℕ) : List ℕ :=
  (h.layers.getD cur []).getD pid []

/-- The query-time layer descent of `Hnsw::search`: `ef = ef_search` and
`M * 2` links on layer 0, `ef = 1` and `M` links above, culling between
layers. -/
def searchDescend (h : Hnsw) (qd : ℕ → ℤ) (fuel : ℕ) :
    List ℕ → Search → Search
  | [], s => s
  | cur :: rest, s =>
    let efnum : ℕ × ℕ := if cur = 0 then (h.efSearch, M * 2) else (1, M)
    let s1 : Search := { s with ef := efnum.1 }
    let s2 := Search.searchLayer qd (layerView h cur) efnum.2 fuel s1
    searchDescend h qd fuel rest (if cur = 0 then s2 else s2.cull)

/-- `Hnsw::search(point, search)`: reset the scratch, return empty for an
empty index, otherwise seed with the enter point and descend; the result
iterator yields `nearest` front to back. -/
def Hnsw.search (h : Hnsw) (qd : ℕ → ℤ) (s : Search) (fuel : ℕ) :
    List Candidate :=
  let s0 := s.reset
  if h.n = 0 then s0.nearest
  else
    let s1 := s0.push 0 qd
    (searchDescend h qd fuel (metaDescending h.meta) s1).nearest

/-- Modelled from the spec: the reference recurrence for the layer records
above layer 0, from the state `(num, nb)` — `num` nodes enter the layer,
`nb` is the running neighbor offset. Each record carries
`total = num`, `max = num - next`, `start = nb`, `end = nb + num * M`
(stride `M` above layer 0), and the recurrence stops exactly when the
clamped `next` is `0`. -/
def restOk (ml : ℚ) : ℕ → ℕ → List LayerMeta → Bool
  | _, _, [] => false
  | num, nb, r :: rest =>
    decide (r.total = num) && decide (r.max = num - nextCount ml num) &&
    decide (r.start = nb) && decide (r.stop = nb + num * M) &&
    (if nextCount ml num = 0 then decide (rest = [])
     else restOk ml (nextCount ml num) r.stop rest)

/-- The `total`/`max` discipline of the `Meta::new` records, head (layer
`0`) first: each record's `total` is the node count entering its layer,
its `max` the clamped difference, the next record's count is
`nextCount`, and the list ends exactly when the clamped next count is
`0`. Unlike `restOk` it ignores the `start`/`end` offsets, so it covers
the zero-layer record (stride `2M`) as well. -/
def chainOk (ml : ℚ) : ℕ → List LayerMeta → Prop
  | _, [] => False
  | num, r :: rest =>
    r.total = num ∧ r.max = num - nextCount ml num ∧
    (if nextCount ml num = 0 then rest = [] else chainOk ml (nextCount ml num) rest)

/-- Modelled from the spec: the admitted results of the heuristic walk —
traverse `working` nearest-first, admit a candidate exactly when no
already-admitted result is strictly closer to it than it is to the query,
and stop admitting once `M * 2` results are held. -/
def specAdmitted (D : ℕ → ℕ → ℤ) : List Candidate → List Candidate → List Candidate
  | [], acc => acc
  | c :: rest, acc =>
    if M * 2 ≤ acc.length then acc
    else if ∀ r ∈ acc, ¬ (D c.pid r.pid < c.distance) then
      specAdmitted D rest (acc ++ [c])
    else specAdmitted D rest acc

/-- Modelled from the spec: the candidates the heuristic walk moves to
`discarded` — those rejected by the diversity rule before `M * 2` results
are held. -/
def specDiscarded (D : ℕ → ℕ → ℤ) :
    List Candidate → List Candidate → List Candidate → List Candidate
  | [], _, disc => disc
  | c :: rest, acc, disc =>
    if M * 2 ≤ acc.length then disc
    else if ∀ r ∈ acc, ¬ (D c.pid r.pid < c.distance) then
      specDiscarded D rest (acc ++ [c]) disc
    else specDiscarded D rest acc (disc ++ [c])

/-- The working list that `select_heuristic` walks: `nearest` itself, or
the visited-deduplicated neighbor-of-neighbor extension re-sorted
nearest-first when `extend_candidates` is set. -/
def workingList (s : Search) (qd : ℕ → ℤ) (view : ℕ → List ℕ)
    (params : Heuristic) : List Candidate :=
  if params.extend_candidates then
    (extendWorking qd view s.nearest s.visited []).2.mergeSort
      fun a b => !Candidate.ltb b a
  else s.nearest

/-- The claim C1 well-formedness of one neighbor row: neighbor `PointId`s
followed only by invalid sentinels. -/
def validThenBlank (row : List ℕ) : Bool :=
  (row.dropWhile fun e => isValid e).all fun e => !isValid e

/-- The claim C1 ordering of one neighbor row: the distances from the
row's own point to its listed neighbors, in row order, are monotonically
non-decreasing. -/
def distsMono (qd : ℕ → ℤ) (row : List ℕ) : Bool :=
  let ds := (nearestRow row).map qd
  (ds.zip ds.tail).all fun pr => decide (pr.1 ≤ pr.2)

/-- The property claim C1 asserts of a built index: every neighbor row of
every layer is valid-then-sentinel and sorted by distance from its own
point. -/
def claimC1holds (D : ℕ → ℕ → ℤ) (h : Hnsw) : Bool :=
  h.layers.all fun layer =>
    layer.enum.all fun pr => validThenBlank pr.2 && distsMono (D pr.1) pr.2

/-- The four 1-D points `1, 2, -3, 0`, in construction order, that refute
claim C1. -/
def ptsC1 : List ℤ := [1, 2, -3, 0]

/-- Squared Euclidean distances of `ptsC1` (exactly representable in
`f32`). -/
def DC1 (i j : ℕ) : ℤ :=
  (ptsC1.getD i 0 - ptsC1.getD j 0) * (ptsC1.getD i 0 - ptsC1.getD j 0)

/-- A rational standing for the default `ml`, the `f32` constant
`1.0 / ln(32) ≈ 0.28853901`; `Meta::new` only uses `⌊num · ml⌋`, which
agrees between the two for every `num` arising below. -/
def mlDef : ℚ := mkRat 28853901 100000000

/-- Proposition form of row well-formedness, with a lower bound `j` on the
number of leading valid entries: the row is some valid entries followed
only by invalid sentinels, at least `j` of them valid. -/
def RowOk (row : List ℕ) (j : ℕ) : Prop :=
  ∃ xs k, row = xs ++ List.replicate k INVALID ∧
    (∀ x ∈ xs, isValid x = true) ∧ j ≤ xs.length

/-- Every `PointId` a scratch state holds (visited set, candidate heap and
nearest list) satisfies `T`. -/
def SIn (T : ℕ → Prop) (s : Search) : Prop :=
  (∀ x ∈ s.visited, T x) ∧ (∀ c ∈ s.candidates, T c.pid) ∧
    (∀ c ∈ s.nearest, T c.pid)

/-- The construction invariant over a build of `n` points, where `S`
holds of the enter point and of every point whose insertion has started:
the zero layer has one `M * 2`-slot well-formed row per point; every
listed neighbor is a started point other than the row's own id; rows of
unstarted points are still untouched; upper rows are `M`-capped
well-formed snapshots with the same neighbor discipline. -/
structure GraphInv (n : ℕ) (S : ℕ → Prop) (st : BuildState) : Prop where
  zlen : st.zero.length = n
  zrow : ∀ r ∈ st.zero, r.length = M * 2 ∧ RowOk r 0
  zent : ∀ i e, e ∈ nearestRow (zeroView st i) → S e ∧ e ≠ i ∧ e < n
  urow : ∀ lay ∈ st.upper, ∀ r ∈ lay, r.length ≤ M ∧ RowOk r 0
  uent : ∀ j i e, e ∈ nearestRow (upperView st j i) → S e ∧ e ≠ i ∧ e < n

/-- The enumerated candidate list processed by the reciprocal-link loop
carries consecutive indices starting at `j`. -/
def pairsConsecFrom : ℕ → List (ℕ × Candidate) → Prop
  | _, [] => True
  | j, pr :: rest => pr.1 = j ∧ pairsConsecFrom (j + 1) rest

/-! ### Claim C4: the `Meta::new` recurrence -/

lemma nextCount_lt (ml : ℚ) (h0 : 0 < ml) (h1 : ml < 1) (num : ℕ)
    (hn : 1 ≤ num) : nextCount ml num < num := by
  have hden : 0 < ml.den := ml.pos
  have hnum : 0 < ml.num := Rat.num_pos.mpr h0
  have hlt : ml.num < (ml.den : ℤ) := by
    have h2 : (ml.num : ℚ) < ((ml.den : ℤ) : ℚ) := by
      rw [← Rat.num_div_den ml] at h1
      have hd : (0:ℚ) < (ml.den : ℚ) := by exact_mod_cast ml.pos
      rw [div_lt_one hd] at h1
      push_cast
      exact_mod_cast h1
    exact_mod_cast h2
  obtain ⟨k, hk⟩ := Int.eq_ofNat_of_zero_le hnum.le
  have htn : ((num : ℤ) * ml.num).toNat = num * k := by
    rw [hk]
    have h3 : ((num : ℤ) * (k : ℤ)) = ((num * k : ℕ) : ℤ) := by push_cast; ring
    rw [h3, Int.toNat_natCast]
  have hkd : k < ml.den := by
    rw [hk] at hlt
    exact_mod_cast hlt
  have hdiv : num * k / ml.den < num := by
    rw [Nat.div_lt_iff_lt_mul hden]
    exact mul_lt_mul_of_pos_left hkd (by omega)
  unfold nextCount ratTruncNat
  simp only [htn]
  split
  · omega
  · exact hdiv

lemma metaLoop_tail_sound (ml : ℚ) (h0 : 0 < ml) (h1 : ml < 1) :
    ∀ num, 1 ≤ num → ∀ fuel, num ≤ fuel → ∀ nb inner, inner ≠ [] →
      ∃ rest, metaLoop ml fuel num nb inner = some (inner ++ rest) ∧
        restOk ml num nb rest = true := by
  intro num
  induction num using Nat.strong_induction_on with
  | _ num ih =>
    intro h1n fuel hfuel nb inner hinner
    match fuel, hfuel with
    | 0, hfuel => omega
    | fuel + 1, hfuel =>
      have hlen : (if inner.length = 0 then 2 else 1) = 1 := by
        simp [List.length_eq_zero, hinner]
      by_cases hz : nextCount ml num = 0
      · refine ⟨[⟨num - nextCount ml num, num, nb, nb + num * M * 1⟩], ?_, ?_⟩
        · unfold metaLoop
          simp only [hlen]
          simp [hz]
        · unfold restOk
          simp [hz]
      · have hnext1 : 1 ≤ nextCount ml num := Nat.one_le_iff_ne_zero.mpr hz
        have hltn : nextCount ml num < num := nextCount_lt ml h0 h1 num h1n
        obtain ⟨rest', hrun, hok⟩ := ih (nextCount ml num) hltn hnext1 fuel
          (by omega) (nb + num * M * 1)
          (inner ++ [⟨num - nextCount ml num, num, nb, nb + num * M * 1⟩])
          (by simp)
        refine ⟨⟨num - nextCount ml num, num, nb, nb + num * M * 1⟩ :: rest', ?_, ?_⟩
        · unfold metaLoop
          simp only [hlen, hz, if_neg hz]
          rw [hrun, List.append_assoc]
          rfl
        · unfold restOk
          simp only [hz, if_neg hz, Nat.mul_one]
          simp only [Nat.mul_one] at hok
          simp [hok]

lemma metaLoop_ml_one_none : ∀ fuel nb inner,
    metaLoop 1 fuel 32 nb inner = none := by
  have h32 : nextCount 1 32 = 32 := by
    unfold nextCount ratTruncNat
    norm_num [M]
    decide
  intro fuel
  induction fuel with
  | zero => intro nb inner; rfl
  | succ fuel ih =>
    intro nb inner
    unfold metaLoop
    simp only [h32]
    simp only [OfNat.ofNat_ne_zero, if_false]
    exact ih _ _

/-- Counterexample to C4 at `ml = 1`, `n = 32`: the clamped `next` equals
`num = 32 ≥ M` forever, so the `Meta::new` loop never reaches `next = 0`
(the fueled model returns `none` for every fuel value, see
`metaLoop_ml_one_none`); the claim asserts the iteration stops. -/
theorem C4_counterexample : Meta.new 1 32 = none :=
  metaLoop_ml_one_none 33 0 []

/-- Claim C4, amended to `0 < ml < 1` (for `ml ≥ 1` and `n ≥ M` the loop
never terminates, see `C4_counterexample`): `Meta::new` produces exactly
the records of the recurrence — the first record has `total = n`,
`max = n - next`, `start = 0`, `end = n * M * 2` (stride `2M`), and the
remaining records follow the stride-`M` recurrence `restOk` from state
`(next, n * M * 2)` until the clamped `next` reaches `0`; `neighbors()`
is the last record's `end`. -/
theorem C4_meta_recurrence (ml : ℚ) (n : ℕ) (h0 : 0 < ml) (h1 : ml < 1)
    (hn : 1 ≤ n) :
    ∃ r rest, Meta.new ml n = some (r :: rest) ∧
      r.total = n ∧ r.max = n - nextCount ml n ∧ r.start = 0 ∧
      r.stop = n * M * 2 ∧
      ((nextCount ml n = 0 ∧ rest = []) ∨
        (nextCount ml n ≠ 0 ∧ restOk ml (nextCount ml n) (n * M * 2) rest = true)) ∧
      (∃ last, (r :: rest).getLast? = some last ∧
        metaNeighbors (r :: rest) = last.stop) := by
  have hrec0 : Meta.new ml n =
      (if nextCount ml n = 0 then some [⟨n - nextCount ml n, n, 0, n * M * 2⟩]
       else metaLoop ml n (nextCount ml n) (n * M * 2)
         [⟨n - nextCount ml n, n, 0, n * M * 2⟩]) := by
    unfold Meta.new
    rw [metaLoop]
    simp
  by_cases hz : nextCount ml n = 0
  · refine ⟨⟨n - nextCount ml n, n, 0, n * M * 2⟩, [], ?_, rfl, rfl, rfl, rfl,
      Or.inl ⟨hz, rfl⟩, ⟨_, rfl, rfl⟩⟩
    rw [hrec0, if_pos hz]
  · have hltn : nextCount ml n < n := nextCount_lt ml h0 h1 n hn
    obtain ⟨rest, hrun, hok⟩ := metaLoop_tail_sound ml h0 h1 (nextCount ml n)
      (Nat.one_le_iff_ne_zero.mpr hz) n (by omega) (n * M * 2)
      [⟨n - nextCount ml n, n, 0, n * M * 2⟩] (by simp)
    refine ⟨⟨n - nextCount ml n, n, 0, n * M * 2⟩, rest, ?_, rfl, rfl, rfl, rfl,
      Or.inr ⟨hz, hok⟩, ?_⟩
    · rw [hrec0, if_neg hz, hrun]
      rfl
    · refine ⟨(⟨n - nextCount ml n, n, 0, n * M * 2⟩ :: rest).getLast (by simp),
        List.getLast?_eq_getLast _ _, ?_⟩
      unfold metaNeighbors
      rw [List.getLast?_eq_getLast _ (by simp)]
      rfl

/-- Witness for `C4_meta_recurrence` at `ml = 1/3`, `n = 5`. -/
theorem C4_meta_recurrence_witness :
    ∃ r rest, Meta.new (mkRat 1 3) 5 = some (r :: rest) ∧
      r.total = 5 ∧ r.max = 5 - nextCount (mkRat 1 3) 5 ∧ r.start = 0 ∧
      r.stop = 5 * M * 2 ∧
      ((nextCount (mkRat 1 3) 5 = 0 ∧ rest = []) ∨
        (nextCount (mkRat 1 3) 5 ≠ 0 ∧
          restOk (mkRat 1 3) (nextCount (mkRat 1 3) 5) (5 * M * 2) rest = true)) ∧
      (∃ last, (r :: rest).getLast? = some last ∧
        metaNeighbors (r :: rest) = last.stop) :=
  C4_meta_recurrence (mkRat 1 3) 5 (by norm_num [mkRat, Rat.normalize])
    (by norm_num [mkRat, Rat.normalize]) (by norm_num)

/-! ### Claim C10: `ZeroNode::insert` semantics -/

/-- One unfolded step of the std binary-search loop. -/
lemma bsLoop_succ (f : ℕ → Ordering) (row : List ℕ)
    (fuel left right : ℕ) :
    bsLoop f row (fuel + 1) left right =
      (if left < right then
        match f (row.getD (left + (right - left) / 2) INVALID) with
        | Ordering.lt => bsLoop f row fuel (left + (right - left) / 2 + 1) right
        | Ordering.gt => bsLoop f row fuel left (left + (right - left) / 2)
        | Ordering.eq => left + (right - left) / 2
      else left) := rfl

/-- `left` never advances past a position whose probe answers `Greater`:
if every slot from `bound` on compares `Greater`, the search result stays
at most `bound`. -/
lemma bsLoop_le (f : ℕ → Ordering) (row : List ℕ) (bound : ℕ)
    (hgt : ∀ m, bound ≤ m → f (row.getD m INVALID) = Ordering.gt) :
    ∀ (fuel left right : ℕ), left ≤ bound →
      bsLoop f row fuel left right ≤ bound := by
  intro fuel
  induction fuel with
  | zero =>
    intro l r h
    exact h
  | succ fuel ih =>
    intro l r h
    rw [bsLoop_succ]
    by_cases hlr : l < r
    · rw [if_pos hlr]
      have hmlt : f (row.getD (l + (r - l) / 2) INVALID) ≠ Ordering.gt →
          l + (r - l) / 2 < bound := by
        intro hne
        by_contra hge
        exact hne (hgt _ (by omega))
      cases hcmp : f (row.getD (l + (r - l) / 2) INVALID) with
      | lt =>
        exact ih _ _ (by
          have := hmlt (by rw [hcmp]; exact fun hc => by cases hc)
          omega)
      | eq =>
        have := hmlt (by rw [hcmp]; exact fun hc => by cases hc)
        show l + (r - l) / 2 ≤ bound
        omega
      | gt =>
        exact ih _ _ h
    · rw [if_neg hlr]
      exact h

/-- When every in-range probe answers `Less`, the search runs off the
right end: the result is `right`. -/
lemma bsLoop_all_lt (f : ℕ → Ordering) (row : List ℕ)
    (hlt : ∀ m, m < row.length → f (row.getD m INVALID) = Ordering.lt) :
    ∀ (fuel left right : ℕ), left ≤ right → right ≤ row.length →
      right - left < fuel → bsLoop f row fuel left right = right := by
  intro fuel
  induction fuel with
  | zero =>
    intro l r h1 h2 h3
    omega
  | succ fuel ih =>
    intro l r h1 h2 h3
    rw [bsLoop_succ]
    by_cases hlr : l < r
    · rw [if_pos hlr]
      have hmid : l + (r - l) / 2 < row.length := by omega
      cases hcmp : f (row.getD (l + (r - l) / 2) INVALID) with
      | lt =>
        exact ih _ _ (by omega) h2 (by omega)
      | eq =>
        exact absurd ((hlt _ hmid).symm.trans hcmp) (by decide)
      | gt =>
        exact absurd ((hlt _ hmid).symm.trans hcmp) (by decide)
    · rw [if_neg hlr]
      omega

/-- Claim C10, amended: on a full-width zero row, `ZeroNode::insert(idx,
pid)` (1) leaves the row entirely unchanged when `idx` is at or beyond
the row length — the back edge is silently omitted; (2) for in-range
`idx` whose slot holds a valid `PointId`, writes `pid` at `idx` shifting
the later entries right by one and dropping the last slot; (3) for an
invalid slot, just overwrites it without any shift. The claim's
parenthetical gloss of the skip condition is false (see the
counterexample): the in-repo comparator passes
`distance.cmp(&key)` — target-versus-probe, inverted with respect to
`binary_search_by`'s probe-versus-target contract — so the index runs off
the end exactly in the opposite situation: when every slot holds a valid
neighbor strictly *farther* from the row's owner than the new node the
index equals the row length and the back edge is dropped, and when every
slot holds a strictly *closer* valid neighbor the index is `0` and the
new node is written at the very front. -/
theorem C10_zero_node_insert (row : List ℕ) (idx pid : ℕ) (key : ℕ → ℤ)
    (d : ℤ) (hlen : row.length = M * 2) :
    (row.length ≤ idx → ZeroNode.insert row idx pid = row) ∧
    (idx < row.length →
      (isValid (row.getD idx INVALID) = true →
        ZeroNode.insert row idx pid =
          row.take idx ++ pid :: (row.drop idx).dropLast) ∧
      (isValid (row.getD idx INVALID) = false →
        ZeroNode.insert row idx pid = row.set idx pid)) ∧
    ((∀ e ∈ row, isValid e = true ∧ d < key e) →
      bsearchIdx (insertCmp key d) row = row.length) ∧
    ((∀ e ∈ row, isValid e = true ∧ key e < d) →
      bsearchIdx (insertCmp key d) row = 0) := by
  refine ⟨?_, ?_, ?_, ?_⟩
  · intro h
    unfold ZeroNode.insert
    rw [if_pos h]
  · intro hidx
    constructor
    · intro hval
      unfold ZeroNode.insert
      rw [if_neg (by omega), if_pos hval]
      have hdrop : row.drop (M * 2) = [] :=
        List.drop_eq_nil_of_le (by omega)
      have hdl : (row.drop idx).dropLast = (row.drop idx).take (M * 2 - 1 - idx) := by
        rw [List.dropLast_eq_take, List.length_drop, hlen]
        congr 1
        omega
      rw [hdrop, hdl, List.append_nil]
    · intro hval
      unfold ZeroNode.insert
      rw [if_neg (by omega), if_neg (by rw [hval]; exact Bool.false_ne_true)]
  · intro h
    unfold bsearchIdx
    refine bsLoop_all_lt (insertCmp key d) row ?_ _ 0 row.length (by omega)
      (le_refl _) (by omega)
    intro m hm
    have hmem : row.getD m INVALID ∈ row := by
      rw [List.getD_eq_getElem row INVALID hm]
      exact List.getElem_mem hm
    obtain ⟨hv, hkey⟩ := h _ hmem
    unfold insertCmp
    rw [if_pos hv, if_pos hkey]
  · intro h
    unfold bsearchIdx
    have := bsLoop_le (insertCmp key d) row 0 ?_ (row.length + 1) 0 row.length
      (le_refl 0)
    · omega
    · intro m _
      by_cases hm : m < row.length
      · have hmem : row.getD m INVALID ∈ row := by
          rw [List.getD_eq_getElem row INVALID hm]
          exact List.getElem_mem hm
        obtain ⟨hv, hkey⟩ := h _ hmem
        unfold insertCmp
        rw [if_pos hv, if_neg (by omega), if_neg (by omega)]
      · rw [List.getD_eq_getElem?_getD, List.getElem?_eq_none (by omega)]
        unfold insertCmp
        rw [if_neg (by decide)]

/-- Counterexample to C10's parenthetical: on the all-valid row of
sixty-four `9`s with new-candidate distance `4` (no slot is closer), the
program's binary-search index runs off the end and the back edge is
dropped; on the all-valid row of `2`s (every slot strictly closer) the
index is `0` and the insert displaces the nearest neighbor instead of
being skipped. -/
theorem C10_counterexample :
    (ZeroNode.insert (List.replicate (M * 2) 9)
        (bsearchIdx (insertCmp (fun e => (e : ℤ)) 4)
          (List.replicate (M * 2) 9)) 5 =
      List.replicate (M * 2) 9) ∧
    ¬ (∀ e ∈ (List.replicate (M * 2) 9 : List ℕ), ((e : ℤ)) < 4) ∧
    (bsearchIdx (insertCmp (fun e => (e : ℤ)) 4)
      (List.replicate (M * 2) 2) = 0) ∧
    (∀ e ∈ (List.replicate (M * 2) 2 : List ℕ), ((e : ℤ)) < 4) ∧
    ZeroNode.insert (List.replicate (M * 2) 2) 0 5 ≠
      List.replicate (M * 2) 2 := by
  decide

/-- Witness for `C10_zero_node_insert`: the row `[5, 7, INVALID, …]`. -/
theorem C10_zero_node_insert_witness :
    ((5 :: 7 :: List.replicate 62 INVALID : List ℕ).length ≤ 1 →
      ZeroNode.insert (5 :: 7 :: List.replicate 62 INVALID) 1 9 =
        5 :: 7 :: List.replicate 62 INVALID) ∧
    (1 < (5 :: 7 :: List.replicate 62 INVALID : List ℕ).length →
      (isValid ((5 :: 7 :: List.replicate 62 INVALID : List ℕ).getD 1 INVALID) = true →
        ZeroNode.insert (5 :: 7 :: List.replicate 62 INVALID) 1 9 =
          (5 :: 7 :: List.replicate 62 INVALID : List ℕ).take 1 ++
            9 :: ((5 :: 7 :: List.replicate 62 INVALID : List ℕ).drop 1).dropLast) ∧
      (isValid ((5 :: 7 :: List.replicate 62 INVALID : List ℕ).getD 1 INVALID) = false →
        ZeroNode.insert (5 :: 7 :: List.replicate 62 INVALID) 1 9 =
          (5 :: 7 :: List.replicate 62 INVALID : List ℕ).set 1 9)) ∧
    ((∀ e ∈ (5 :: 7 :: List.replicate 62 INVALID : List ℕ),
        isValid e = true ∧ (3 : ℤ) < 0) →
      bsearchIdx (insertCmp (fun _ => 0) 3) (5 :: 7 :: List.replicate 62 INVALID) =
        (5 :: 7 :: List.replicate 62 INVALID : List ℕ).length) ∧
    ((∀ e ∈ (5 :: 7 :: List.replicate 62 INVALID : List ℕ),
        isValid e = true ∧ (0 : ℤ) < 3) →
      bsearchIdx (insertCmp (fun _ => 0) 3)
        (5 :: 7 :: List.replicate 62 INVALID) = 0) :=
  C10_zero_node_insert (5 :: 7 :: List.replicate 62 INVALID) 1 9 (fun _ => 0) 3
    (by decide)

/-! ### Claim C3: `Search::push` -/

lemma Candidate.lt_trans {a b c : Candidate} (h1 : a.lt b) (h2 : b.lt c) :
    a.lt c := by
  unfold Candidate.lt at *
  rcases h1 with h1 | ⟨h1e, h1p⟩ <;> rcases h2 with h2 | ⟨h2e, h2p⟩
  · exact Or.inl (h1.trans h2)
  · exact Or.inl (h2e ▸ h1)
  · exact Or.inl (h1e ▸ h2)
  · exact Or.inr ⟨h1e.trans h2e, h1p.trans h2p⟩

lemma Candidate.lt_irrefl (a : Candidate) : ¬ a.lt a := by
  unfold Candidate.lt
  simp

lemma Candidate.not_lt_iff {a b : Candidate} : ¬ a.lt b ↔ b.lt a ∨ a = b := by
  unfold Candidate.lt
  constructor
  · intro h
    rcases lt_trichotomy a.distance b.distance with hd | hd | hd
    · exact absurd (Or.inl hd) h
    · rcases lt_trichotomy a.pid b.pid with hp | hp | hp
      · exact absurd (Or.inr ⟨hd, hp⟩) h
      · right
        cases a; cases b
        simp_all
      · exact Or.inl (Or.inr ⟨hd.symm, hp⟩)
    · exact Or.inl (Or.inl hd)
  · intro h hc
    rcases h with h | rfl
    · rcases h with h | ⟨he, hp⟩ <;> rcases hc with hc | ⟨hce, hcp⟩ <;> omega
    · rcases hc with hc | ⟨_, hc⟩ <;> omega

/-- Insertion at the binary-search index of a strictly sorted list is
insertion at the sorted position: before the first element not smaller
than the new candidate. -/
lemma insertIdx_countP_sorted (c : Candidate) :
    ∀ l : List Candidate, l.Pairwise Candidate.lt →
      l.insertIdx (l.countP fun x => Candidate.ltb x c) c =
        (l.takeWhile fun x => Candidate.ltb x c) ++
          c :: (l.dropWhile fun x => Candidate.ltb x c) := by
  intro l
  induction l with
  | nil => intro _; rfl
  | cons x xs ih =>
    intro hs
    by_cases hx : Candidate.ltb x c = true
    · have hcount : (x :: xs).countP (fun y => Candidate.ltb y c) =
          xs.countP (fun y => Candidate.ltb y c) + 1 := by
        simp [List.countP_cons, hx]
      have ht : (x :: xs).takeWhile (fun y => Candidate.ltb y c) =
          x :: xs.takeWhile (fun y => Candidate.ltb y c) := by
        simp [List.takeWhile_cons, hx]
      have hd : (x :: xs).dropWhile (fun y => Candidate.ltb y c) =
          xs.dropWhile (fun y => Candidate.ltb y c) := by
        simp [List.dropWhile_cons, hx]
      rw [hcount, List.insertIdx_succ_cons, ht, hd,
        ih (List.Pairwise.of_cons hs), List.cons_append]
    · have hxall : ∀ y ∈ xs, ¬ Candidate.lt y c := by
        intro y hy hyc
        have hxy : Candidate.lt x y := (List.pairwise_cons.mp hs).1 y hy
        exact hx (by simpa [Candidate.ltb] using Candidate.lt_trans hxy hyc)
      have hcount : (x :: xs).countP (fun y => Candidate.ltb y c) = 0 := by
        rw [List.countP_eq_zero]
        intro y hy
        rcases List.mem_cons.mp hy with rfl | hy
        · simpa using hx
        · simpa [Candidate.ltb] using hxall y hy
      have ht : (x :: xs).takeWhile (fun y => Candidate.ltb y c) = [] := by
        simp only [List.takeWhile_cons]
        rw [if_neg (by simpa using hx)]
      have hd : (x :: xs).dropWhile (fun y => Candidate.ltb y c) = x :: xs := by
        simp only [List.dropWhile_cons]
        rw [if_neg (by simpa using hx)]
      rw [hcount, ht, hd]
      rfl

/-- The binary-search index condition `idx < ef` of `Search::push`, on a
sorted `nearest` holding at most `ef` entries and not containing the new
candidate, is equivalent to: `nearest` is not full, or the new candidate
is lexicographically below the current last entry. -/
lemma countP_lt_ef_iff (c : Candidate) (l : List Candidate) (ef : ℕ)
    (hs : l.Pairwise Candidate.lt) (hlen : l.length ≤ ef) (hmem : c ∉ l) :
    (l.countP fun x => Candidate.ltb x c) < ef ↔
      (l.length < ef ∨ ∃ last, l.getLast? = some last ∧ Candidate.lt c last) := by
  have hcle : (l.countP fun x => Candidate.ltb x c) ≤ l.length :=
    List.countP_le_length _
  by_cases hfull : l.length < ef
  · constructor
    · intro _
      exact Or.inl hfull
    · intro _
      omega
  · have hlef : l.length = ef := by omega
    constructor
    · intro h
      right
      have hne : ¬ ∀ x ∈ l, Candidate.ltb x c = true := by
        intro hall
        rw [List.countP_eq_length.mpr hall] at h
        omega
      push_neg at hne
      obtain ⟨x, hxl, hxc⟩ := hne
      have hlne : l ≠ [] := by
        intro h0
        rw [h0] at hxl
        exact absurd hxl (List.not_mem_nil x)
      refine ⟨l.getLast hlne, List.getLast?_eq_getLast l hlne, ?_⟩
      have hcx : Candidate.lt c x := by
        rcases Candidate.not_lt_iff.mp (by simpa [Candidate.ltb] using hxc) with h | rfl
        · exact h
        · exact absurd hxl hmem
      have hsplit : l.dropLast ++ [l.getLast hlne] = l :=
        List.dropLast_append_getLast hlne
      have hxlast : x = l.getLast hlne ∨ Candidate.lt x (l.getLast hlne) := by
        have hx2 : x ∈ l.dropLast ++ [l.getLast hlne] := by
          rw [hsplit]
          exact hxl
        rcases List.mem_append.mp hx2 with hx3 | hx3
        · right
          have hp2 : (l.dropLast ++ [l.getLast hlne]).Pairwise Candidate.lt := by
            rw [hsplit]
            exact hs
          exact (List.pairwise_append.mp hp2).2.2 x hx3 _ (List.mem_singleton_self _)
        · left
          exact List.mem_singleton.mp hx3
      rcases hxlast with rfl | hlt
      · exact hcx
      · exact Candidate.lt_trans hcx hlt
    · rintro (h | ⟨last, hlast, hclast⟩)
      · omega
      · have hlne : l ≠ [] := by
          intro h0
          rw [h0] at hlast
          simp at hlast
        have hlastmem : last ∈ l := by
          have := List.getLast?_eq_getLast l hlne
          rw [this] at hlast
          exact (Option.some_inj.mp hlast) ▸ List.getLast_mem hlne
        have hnot : Candidate.ltb last c = false := by
          have : ¬ Candidate.lt last c := by
            intro hl
            exact Candidate.lt_irrefl last (Candidate.lt_trans hl hclast)
          simpa [Candidate.ltb] using this
        have : (l.countP fun x => Candidate.ltb x c) ≠ l.length := by
          intro heq
          have := List.countP_eq_length.mp heq last hlastmem
          rw [hnot] at this
          exact Bool.false_ne_true this
        omega

/-- Counterexample to C3: with `ef = 1`, `nearest = [(5, 3)]`,
`visited = {3}` and a new point `p = 1` at distance exactly `5`, the
claim's condition (`nearest` not full, or `d < last.distance`) is false,
yet the source inserts `(5, 1)` — the binary search breaks the distance
tie by `PointId`, so `nearest` and `candidates` change. -/
theorem C3_counterexample :
    (1 : ℕ) ∉ (Search.mk [3] [] [⟨5, 3⟩] 1).visited ∧
    ¬ ((Search.mk [3] [] [⟨5, 3⟩] 1).nearest.length <
          (Search.mk [3] [] [⟨5, 3⟩] 1).ef ∨
        (5 : ℤ) < 5) ∧
    (Search.push (Search.mk [3] [] [⟨5, 3⟩] 1) 1 fun _ => 5).nearest ≠
      (Search.mk [3] [] [⟨5, 3⟩] 1).nearest := by
  refine ⟨by decide, by decide, by decide⟩

/-- Claim C3, amended: on a scratch whose `nearest` is strictly sorted,
holds at most `ef` entries, and whose pids are all visited, `push(p, q)`
leaves the whole state unchanged when `p` was already visited; otherwise
it always marks `p` visited, and it inserts `(d, p)` at the sorted
position of `nearest` and pushes it onto `candidates` if and only if
`nearest` has fewer than `ef` entries or `(d, p)` is lexicographically
below the last entry (distance first, `PointId` breaking ties — not the
claimed distance-only comparison, see `C3_counterexample`); in every
other case `nearest` and `candidates` are unchanged. -/
theorem C3_push_characterization (s : Search) (p : ℕ) (qd : ℕ → ℤ)
    (hsorted : s.nearest.Pairwise Candidate.lt)
    (hvis : ∀ c ∈ s.nearest, c.pid ∈ s.visited)
    (hlen : s.nearest.length ≤ s.ef) :
    (p ∈ s.visited → s.push p qd = s) ∧
    (p ∉ s.visited →
      (s.push p qd).visited = p :: s.visited ∧
      (s.push p qd).ef = s.ef ∧
      ((s.nearest.length < s.ef ∨
          ∃ last, s.nearest.getLast? = some last ∧
            Candidate.lt ⟨qd p, p⟩ last) →
        (s.push p qd).nearest =
          (s.nearest.takeWhile fun x => Candidate.ltb x ⟨qd p, p⟩) ++
            ⟨qd p, p⟩ :: (s.nearest.dropWhile fun x => Candidate.ltb x ⟨qd p, p⟩) ∧
        (s.push p qd).candidates = heapPush ⟨qd p, p⟩ s.candidates) ∧
      (¬ (s.nearest.length < s.ef ∨
          ∃ last, s.nearest.getLast? = some last ∧
            Candidate.lt ⟨qd p, p⟩ last) →
        (s.push p qd).nearest = s.nearest ∧
        (s.push p qd).candidates = s.candidates)) := by
  have hmem : p ∉ s.visited → (⟨qd p, p⟩ : Candidate) ∉ s.nearest := by
    intro hp hc
    exact hp (hvis _ hc)
  constructor
  · intro hp
    unfold Search.push
    rw [if_pos hp]
  · intro hp
    have hnc : (⟨qd p, p⟩ : Candidate) ∉ s.nearest := hmem hp
    have hiff := countP_lt_ef_iff ⟨qd p, p⟩ s.nearest s.ef hsorted hlen hnc
    by_cases hcond : (s.nearest.countP fun x => Candidate.ltb x ⟨qd p, p⟩) < s.ef
    · have heq : s.push p qd =
          { s with
            visited := p :: s.visited
            nearest := s.nearest.insertIdx
              (s.nearest.countP fun x => Candidate.ltb x ⟨qd p, p⟩) ⟨qd p, p⟩
            candidates := heapPush ⟨qd p, p⟩ s.candidates } := by
        unfold Search.push
        rw [if_neg hp, if_neg hnc, if_pos hcond]
      refine ⟨by rw [heq], by rw [heq], ?_, ?_⟩
      · intro _
        rw [heq]
        exact ⟨insertIdx_countP_sorted _ _ hsorted, rfl⟩
      · intro hno
        exact absurd (hiff.mp hcond) hno
    · have heq : s.push p qd = { s with visited := p :: s.visited } := by
        unfold Search.push
        rw [if_neg hp, if_neg hnc, if_neg hcond]
      refine ⟨by rw [heq], by rw [heq], ?_, ?_⟩
      · intro hyes
        exact absurd (hiff.mpr hyes) hcond
      · intro _
        rw [heq]
        exact ⟨rfl, rfl⟩

/-- Witness for `C3_push_characterization`: `ef = 2`,
`nearest = [(4, 0)]`, `visited = {0}`, pushing `p = 7` at distance `9`. -/
theorem C3_push_characterization_witness :
    ((7 : ℕ) ∈ (Search.mk [0] [] [⟨4, 0⟩] 2).visited →
      (Search.mk [0] [] [⟨4, 0⟩] 2).push 7 (fun _ => 9) =
        Search.mk [0] [] [⟨4, 0⟩] 2) ∧
    ((7 : ℕ) ∉ (Search.mk [0] [] [⟨4, 0⟩] 2).visited →
      ((Search.mk [0] [] [⟨4, 0⟩] 2).push 7 (fun _ => 9)).visited =
        7 :: (Search.mk [0] [] [⟨4, 0⟩] 2).visited ∧
      ((Search.mk [0] [] [⟨4, 0⟩] 2).push 7 (fun _ => 9)).ef =
        (Search.mk [0] [] [⟨4, 0⟩] 2).ef ∧
      (((Search.mk [0] [] [⟨4, 0⟩] 2).nearest.length <
            (Search.mk [0] [] [⟨4, 0⟩] 2).ef ∨
          ∃ last, (Search.mk [0] [] [⟨4, 0⟩] 2).nearest.getLast? = some last ∧
            Candidate.lt ⟨9, 7⟩ last) →
        ((Search.mk [0] [] [⟨4, 0⟩] 2).push 7 (fun _ => 9)).nearest =
          ((Search.mk [0] [] [⟨4, 0⟩] 2).nearest.takeWhile
              fun x => Candidate.ltb x ⟨9, 7⟩) ++
            ⟨9, 7⟩ :: ((Search.mk [0] [] [⟨4, 0⟩] 2).nearest.dropWhile
              fun x => Candidate.ltb x ⟨9, 7⟩) ∧
        ((Search.mk [0] [] [⟨4, 0⟩] 2).push 7 (fun _ => 9)).candidates =
          heapPush ⟨9, 7⟩ (Search.mk [0] [] [⟨4, 0⟩] 2).candidates) ∧
      (¬ ((Search.mk [0] [] [⟨4, 0⟩] 2).nearest.length <
            (Search.mk [0] [] [⟨4, 0⟩] 2).ef ∨
          ∃ last, (Search.mk [0] [] [⟨4, 0⟩] 2).nearest.getLast? = some last ∧
            Candidate.lt ⟨9, 7⟩ last) →
        ((Search.mk [0] [] [⟨4, 0⟩] 2).push 7 (fun _ => 9)).nearest =
          (Search.mk [0] [] [⟨4, 0⟩] 2).nearest ∧
        ((Search.mk [0] [] [⟨4, 0⟩] 2).push 7 (fun _ => 9)).candidates =
          (Search.mk [0] [] [⟨4, 0⟩] 2).candidates)) :=
  C3_push_characterization (Search.mk [0] [] [⟨4, 0⟩] 2) 7 (fun _ => 9)
    (by simp) (by intro c hc; simp at hc; simp [hc]) (by simp)

/-! ### Claim C5: `Search::select_heuristic` -/

lemma admitLoop_eq_spec (D : ℕ → ℕ → ℤ) :
    ∀ (w acc disc : List Candidate),
      admitLoop D w acc disc = (specAdmitted D w acc, specDiscarded D w acc disc) := by
  intro w
  induction w with
  | nil =>
    intro acc disc
    rfl
  | cons c rest ih =>
    intro acc disc
    unfold admitLoop specAdmitted specDiscarded
    by_cases hfull : M * 2 ≤ acc.length
    · rw [if_pos hfull, if_pos hfull, if_pos hfull]
    · rw [if_neg hfull, if_neg hfull, if_neg hfull]
      by_cases hadm : ∀ r ∈ acc, ¬ (D c.pid r.pid < c.distance)
      · have hb : (acc.all fun r => !decide (D c.pid r.pid < c.distance)) = true := by
          rw [List.all_eq_true]
          intro r hr
          simpa using hadm r hr
        rw [if_pos hb, if_pos hadm, if_pos hadm]
        exact ih _ _
      · have hb : ¬ (acc.all fun r => !decide (D c.pid r.pid < c.distance)) = true := by
          rw [List.all_eq_true]
          intro hall
          exact hadm fun r hr => by simpa using hall r hr
        rw [if_neg hb, if_neg hadm, if_neg hadm]
        exact ih _ _

lemma keepPrunedLoop_eq_take :
    ∀ (disc near : List Candidate),
      keepPrunedLoop disc near = near ++ disc.take (M * 2 - near.length) := by
  intro disc
  induction disc with
  | nil =>
    intro near
    simp [keepPrunedLoop]
  | cons c rest ih =>
    intro near
    unfold keepPrunedLoop
    by_cases hfull : M * 2 ≤ near.length
    · rw [if_pos hfull]
      have : M * 2 - near.length = 0 := by omega
      simp [this]
    · rw [if_neg hfull, ih]
      have h1 : M * 2 - near.length = (M * 2 - (near.length + 1)) + 1 := by omega
      rw [h1]
      simp [List.take_succ_cons]

lemma specAdmitted_length (D : ℕ → ℕ → ℤ) :
    ∀ (w acc : List Candidate), acc.length ≤ M * 2 →
      (specAdmitted D w acc).length ≤ M * 2 := by
  intro w
  induction w with
  | nil =>
    intro acc h
    exact h
  | cons c rest ih =>
    intro acc h
    unfold specAdmitted
    by_cases hfull : M * 2 ≤ acc.length
    · rw [if_pos hfull]
      exact h
    · rw [if_neg hfull]
      by_cases hadm : ∀ r ∈ acc, ¬ (D c.pid r.pid < c.distance)
      · rw [if_pos hadm]
        exact ih _ (by simp; omega)
      · rw [if_neg hadm]
        exact ih _ h

/-- Claim C5: for every scratch state and every heuristic parameter
choice, the result of `select_heuristic` is exactly the claim's walk —
the greedily admitted diverse candidates (`specAdmitted`, walking the
working list nearest-first, admitting `c` iff no already-admitted `r` has
`distance(c, r) < c.distance`, stopping at `M * 2`), followed, when
`keep_pruned` is set, by the rejected candidates (`specDiscarded`) in
order until the result reaches `M * 2` — and the returned set never
exceeds `M * 2` entries. -/
lemma select_heuristic_eq (s : Search) (D : ℕ → ℕ → ℤ) (qd : ℕ → ℤ)
    (view : ℕ → List ℕ) (params : Heuristic) :
    (s.select_heuristic D qd view params).nearest =
      (if params.keep_pruned then
        keepPrunedLoop (specDiscarded D (workingList s qd view params) [] [])
          (specAdmitted D (workingList s qd view params) [])
      else specAdmitted D (workingList s qd view params) []) := by
  unfold Search.select_heuristic workingList
  by_cases hext : params.extend_candidates
  · simp only [hext, if_true]
    rw [admitLoop_eq_spec]
  · simp only [hext, if_false, Bool.false_eq_true]
    rw [admitLoop_eq_spec]

lemma select_heuristic_len (s : Search) (D : ℕ → ℕ → ℤ) (qd : ℕ → ℤ)
    (view : ℕ → List ℕ) (params : Heuristic) :
    (s.select_heuristic D qd view params).nearest.length ≤ M * 2 := by
  rw [select_heuristic_eq]
  have hadm := specAdmitted_length D (workingList s qd view params) [] (by simp)
  by_cases hkp : params.keep_pruned
  · rw [if_pos hkp, keepPrunedLoop_eq_take]
    rw [List.length_append, List.length_take]
    omega
  · rw [if_neg hkp]
    exact hadm

theorem C5_select_heuristic (s : Search) (D : ℕ → ℕ → ℤ) (qd : ℕ → ℤ)
    (view : ℕ → List ℕ) (params : Heuristic) :
    (s.select_heuristic D qd view params).nearest =
      (if params.keep_pruned then
        specAdmitted D (workingList s qd view params) [] ++
          (specDiscarded D (workingList s qd view params) [] []).take
            (M * 2 - (specAdmitted D (workingList s qd view params) []).length)
      else specAdmitted D (workingList s qd view params) []) ∧
    (s.select_heuristic D qd view params).nearest.length ≤ M * 2 := by
  constructor
  · rw [select_heuristic_eq]
    by_cases hkp : params.keep_pruned
    · rw [if_pos hkp, if_pos hkp, keepPrunedLoop_eq_take]
    · rw [if_neg hkp, if_neg hkp]
  · exact select_heuristic_len s D qd view params

/-! ### Claim C9: the empty index -/

/-- Claim C9: building from an empty point slice returns the empty index —
no points, empty neighbor layers, default (empty) meta, empty remap — and
searching it with any query, any scratch and any fuel yields the empty
result list (length `0`), not an error. -/
theorem C9_empty_index (D : ℕ → ℕ → ℤ) (ml : ℚ) (efc efs : ℕ)
    (heuristic : Option Heuristic) :
    build D 0 ml efc efs heuristic = some (⟨efs, 0, [], []⟩, []) ∧
    ∀ (qd : ℕ → ℤ) (s : Search) (fuel : ℕ),
      (Hnsw.mk efs 0 [] []).search qd s fuel = [] := by
  constructor
  · rfl
  · intro qd s fuel
    rfl

/-! ### Claim C2: link limits of the insertion descent -/

/-- Claim C2: during the insertion of a point at layer `L`, every search
on a layer `cur > L` considers at most `M` links per visited candidate
(the upper rows hold at most `M` slots), and the final zero-layer search
considers at most `M * 2` links per visited candidate — for every `L`,
including `L > 0`. The link limit passed to every search of the descent is
`insertNum L`, and `considered` is exactly the per-candidate neighbor list
each `searchLayer` step pushes. -/
theorem C2_insert_link_limits (st : BuildState) (L : ℕ)
    (hup : ∀ i pid, (upperView st i pid).length ≤ M) :
    (∀ cur pid, L < cur →
      (considered (upperView st (cur - 1)) (insertNum L) pid).length ≤ M) ∧
    (∀ pid, (considered (zeroView st) (insertNum L) pid).length ≤ M * 2) := by
  constructor
  · intro cur pid _
    unfold considered
    calc ((nearestRow (upperView st (cur - 1) pid)).take (insertNum L)).length
        ≤ (nearestRow (upperView st (cur - 1) pid)).length := by
          rw [List.length_take]
          omega
      _ ≤ (upperView st (cur - 1) pid).length := List.length_filter_le _ _
      _ ≤ M := hup _ _
  · intro pid
    unfold considered
    have h1 : ((nearestRow (zeroView st pid)).take (insertNum L)).length ≤
        insertNum L := by
      rw [List.length_take]
      omega
    have h2 : insertNum L ≤ M * 2 := by
      unfold insertNum
      split <;> omega
    omega

/-- Witness for `C2_insert_link_limits`: a two-layer build state with one
upper row. -/
theorem C2_insert_link_limits_witness :
    (∀ cur pid, 1 < cur →
      (considered
        (upperView ⟨List.replicate 4 (List.replicate (M * 2) INVALID),
          [[List.replicate M INVALID]]⟩ (cur - 1)) (insertNum 1) pid).length ≤ M) ∧
    (∀ pid,
      (considered
        (zeroView ⟨List.replicate 4 (List.replicate (M * 2) INVALID),
          [[List.replicate M INVALID]]⟩) (insertNum 1) pid).length ≤ M * 2) :=
  C2_insert_link_limits
    ⟨List.replicate 4 (List.replicate (M * 2) INVALID), [[List.replicate M INVALID]]⟩
    1
    (by
      intro i pid
      unfold upperView
      match i, pid with
      | 0, 0 => simp [M]
      | 0, pid + 1 => simp [List.getD]
      | i + 1, pid => simp [List.getD])

/-! ### Claim C1: row order after a default build -/

/-- Counterexample to C1: building the four 1-D points `1, 2, -3, 0` (in
construction order) with the default configuration
(`ef_construction = ef_search = 100`, default `ml`, heuristic
`{extend_candidates: false, keep_pruned: true}`) produces the index whose
row for `PointId 3` (the point `0`) is `[0, 2, 1, …]`, with distances
`1, 9, 4` — not monotonically non-decreasing, because `keep_pruned`
appends the pruned candidate `(4, 1)` after the admitted `(9, 2)`. -/
theorem C1_counterexample :
    (build DC1 4 mlDef 100 100 (some Heuristic.default0)).map
      (fun r => claimC1holds DC1 r.1) = some false := by decide

/-! ### Row well-formedness machinery for the amended C1 and for C6 -/

lemma RowOk_mono {row : List ℕ} {j j' : ℕ} (h : RowOk row j) (hle : j' ≤ j) :
    RowOk row j' := by
  obtain ⟨xs, k, h1, h2, h3⟩ := h
  exact ⟨xs, k, h1, h2, le_trans hle h3⟩

lemma RowOk_replicate (m : ℕ) : RowOk (List.replicate m INVALID) 0 :=
  ⟨[], m, rfl, by simp, by simp⟩

lemma RowOk_length {row : List ℕ} {j : ℕ} (h : RowOk row j) :
    j ≤ row.length := by
  obtain ⟨xs, k, rfl, _, h3⟩ := h
  simp only [List.length_append]
  omega

lemma RowOk_take {row : List ℕ} (h : RowOk row 0) (m : ℕ) :
    RowOk (row.take m) 0 := by
  obtain ⟨xs, k, rfl, h2, -⟩ := h
  refine ⟨xs.take m, min (m - xs.length) k, ?_, ?_, by omega⟩
  · rw [List.take_append_eq_append_take, List.take_replicate]
  · intro x hx
    exact h2 x (List.mem_of_mem_take hx)

lemma RowOk_drop {row : List ℕ} (h : RowOk row 0) (m : ℕ) :
    RowOk (row.drop m) 0 := by
  obtain ⟨xs, k, rfl, h2, -⟩ := h
  refine ⟨xs.drop m, k - (m - xs.length), ?_, ?_, by omega⟩
  · rw [List.drop_append_eq_append_drop, List.drop_replicate]
  · intro x hx
    exact h2 x (List.mem_of_mem_drop hx)

lemma RowOk_dropLast {row : List ℕ} (h : RowOk row 0) :
    RowOk row.dropLast 0 := by
  rw [List.dropLast_eq_take]
  exact RowOk_take h _

lemma RowOk_append_valid {pre row : List ℕ} (hpre : ∀ x ∈ pre, isValid x = true)
    (h : RowOk row 0) : RowOk (pre ++ row) 0 := by
  obtain ⟨xs, k, rfl, h2, -⟩ := h
  refine ⟨pre ++ xs, k, by rw [List.append_assoc], ?_, by omega⟩
  intro x hx
  rcases List.mem_append.mp hx with hx | hx
  · exact hpre x hx
  · exact h2 x hx

lemma RowOk_cons_valid {x : ℕ} {row : List ℕ} (hx : isValid x = true)
    (h : RowOk row 0) : RowOk (x :: row) 0 :=
  @RowOk_append_valid [x] row (by simpa using hx) h

/-- Writing a valid id at slot `j`, the first not-necessarily-valid slot,
keeps the row well formed and extends the valid run to `j + 1`. -/
lemma RowOk_set {row : List ℕ} {j pid : ℕ} (h : RowOk row j)
    (hv : isValid pid = true) (hlt : j < row.length) :
    RowOk (row.set j pid) (j + 1) ∧ ∀ e ∈ row.set j pid, e ∈ row ∨ e = pid := by
  refine ⟨?_, fun e he => List.mem_or_eq_of_mem_set he⟩
  obtain ⟨xs, k, rfl, h2, h3⟩ := h
  rcases Nat.lt_or_ge j xs.length with hj | hj
  · refine ⟨xs.set j pid, k, List.set_append_left j pid hj, ?_, by simp; omega⟩
    intro x hx
    rcases List.mem_or_eq_of_mem_set hx with hx | rfl
    · exact h2 x hx
    · exact hv
  · have hjeq : j = xs.length := by omega
    have hk : 0 < k := by
      simp only [List.length_append, List.length_replicate] at hlt
      omega
    refine ⟨xs ++ [pid], k - 1, ?_, ?_, by simp; omega⟩
    · rw [List.set_append_right j pid (by omega), List.append_assoc]
      congr 1
      have hj0 : j - xs.length = 0 := by omega
      rw [hj0]
      match k, hk with
      | k + 1, _ =>
        simp [List.replicate_succ]
    · intro x hx
      rcases List.mem_append.mp hx with hx | hx
      · exact h2 x hx
      · simp only [List.mem_singleton] at hx
        subst hx
        exact hv

lemma rewrite_length : ∀ (row xs : List ℕ),
    (ZeroNode.rewrite row xs).length = row.length := by
  intro row
  induction row with
  | nil => intro xs; cases xs <;> rfl
  | cons slot rest ih =>
    intro xs
    cases xs with
    | cons p ps => simpa [ZeroNode.rewrite] using ih ps
    | nil =>
      simp only [ZeroNode.rewrite]
      by_cases h : isValid slot = true
      · rw [if_pos h]
        simpa using ih []
      · rw [if_neg h]

lemma RowOk_tail {x : ℕ} {row : List ℕ} (h : RowOk (x :: row) 0) :
    RowOk row 0 := by
  obtain ⟨xs, k, heq, h2, -⟩ := h
  cases xs with
  | nil =>
    cases k with
    | zero => simp at heq
    | succ k =>
      simp only [List.nil_append, List.replicate_succ, List.cons.injEq] at heq
      rw [heq.2]
      exact RowOk_replicate k
  | cons y ys =>
    simp only [List.cons_append, List.cons.injEq] at heq
    rw [heq.2]
    exact ⟨ys, k, rfl, fun z hz => h2 z (List.mem_cons_of_mem y hz), by omega⟩

lemma RowOk_invalid_head {x : ℕ} {row : List ℕ} (h : RowOk (x :: row) 0)
    (hx : isValid x = false) : ∀ e ∈ x :: row, isValid e = false := by
  obtain ⟨xs, k, heq, h2, -⟩ := h
  cases xs with
  | nil =>
    simp only [List.nil_append] at heq
    intro e he
    rw [heq] at he
    rw [List.eq_of_mem_replicate he]
    simp [isValid]
  | cons y ys =>
    simp only [List.cons_append, List.cons.injEq] at heq
    exact absurd (heq.1 ▸ h2 y (List.mem_cons_self y ys)) (by simp [hx])

lemma invalid_eq {e : ℕ} (h : isValid e = false) : e = INVALID := by
  by_contra hne
  simp [isValid, hne] at h

lemma rewrite_nil_replicate : ∀ (row : List ℕ), RowOk row 0 →
    ZeroNode.rewrite row [] = List.replicate row.length INVALID := by
  intro row
  induction row with
  | nil => intro _; rfl
  | cons slot rest ih =>
    intro hrow
    simp only [ZeroNode.rewrite]
    by_cases h : isValid slot = true
    · rw [if_pos h, ih (RowOk_tail hrow)]
      simp [List.replicate_succ]
    · rw [if_neg h]
      have hall := RowOk_invalid_head hrow (by simpa using h)
      rw [List.eq_replicate_iff]
      refine ⟨by simp, ?_⟩
      intro e he
      exact invalid_eq (hall e he)

lemma rewrite_RowOk : ∀ (row xs : List ℕ), RowOk row 0 →
    (∀ x ∈ xs, isValid x = true) → RowOk (ZeroNode.rewrite row xs) 0 := by
  intro row
  induction row with
  | nil =>
    intro xs _ _
    cases xs <;> exact RowOk_replicate 0
  | cons slot rest ih =>
    intro xs hrow hxs
    cases xs with
    | cons p ps =>
      simp only [ZeroNode.rewrite]
      exact RowOk_cons_valid (hxs p (List.mem_cons_self p ps))
        (ih ps (RowOk_tail hrow) fun x hx => hxs x (List.mem_cons_of_mem p hx))
    | nil =>
      simp only [ZeroNode.rewrite]
      by_cases h : isValid slot = true
      · rw [if_pos h, rewrite_nil_replicate rest (RowOk_tail hrow)]
        have : (INVALID :: List.replicate rest.length INVALID) =
            List.replicate (rest.length + 1) INVALID := by
          simp [List.replicate_succ]
        rw [this]
        exact RowOk_replicate _
      · rw [if_neg h]
        exact hrow

lemma rewrite_mem : ∀ (row xs : List ℕ), RowOk row 0 →
    ∀ e ∈ ZeroNode.rewrite row xs, isValid e = true → e ∈ xs := by
  intro row
  induction row with
  | nil =>
    intro xs _ e he
    cases xs <;> simp [ZeroNode.rewrite] at he
  | cons slot rest ih =>
    intro xs hrow e he hv
    cases xs with
    | cons p ps =>
      simp only [ZeroNode.rewrite, List.mem_cons] at he
      rcases he with rfl | he
      · exact List.mem_cons_self e ps
      · exact List.mem_cons_of_mem p (ih ps (RowOk_tail hrow) e he hv)
    | nil =>
      exfalso
      simp only [ZeroNode.rewrite] at he
      by_cases h : isValid slot = true
      · rw [if_pos h, rewrite_nil_replicate rest (RowOk_tail hrow)] at he
        rcases List.mem_cons.mp he with rfl | he
        · simp [isValid] at hv
        · rw [List.eq_of_mem_replicate he] at hv
          simp [isValid] at hv
      · rw [if_neg h] at he
        rw [invalid_eq (RowOk_invalid_head hrow (by simpa using h) e he)] at hv
        simp [isValid] at hv

lemma getD_append_decomp {xs : List ℕ} {k idx : ℕ}
    (hxs : ∀ x ∈ xs, isValid x = true) :
    isValid ((xs ++ List.replicate k INVALID).getD idx INVALID) = true ↔
      idx < xs.length := by
  rw [List.getD_eq_getElem?_getD, List.getElem?_append]
  by_cases h : idx < xs.length
  · rw [if_pos h]
    simp only [h, iff_true]
    rw [List.getElem?_eq_getElem h]
    exact hxs _ (List.getElem_mem h)
  · rw [if_neg h]
    simp only [h, iff_false]
    rw [List.getElem?_replicate]
    split <;> simp [isValid]

/-- The program's insertion index never lands strictly inside the
sentinel tail: positions at or past the valid prefix probe as invalid,
so the comparator answers `Greater` there and the search never moves
`left` past them. This holds for either historical variant of the std
loop. -/
lemma bsIdx_le (key : ℕ → ℤ) (d : ℤ) (xs : List ℕ) (k : ℕ)
    (hxs : ∀ x ∈ xs, isValid x = true) :
    bsearchIdx (insertCmp key d) (xs ++ List.replicate k INVALID) ≤
      xs.length := by
  unfold bsearchIdx
  refine bsLoop_le (insertCmp key d) (xs ++ List.replicate k INVALID)
    xs.length ?_ _ 0 _ (by omega)
  intro m hm
  have hinv : isValid ((xs ++ List.replicate k INVALID).getD m INVALID) =
      false := by
    rcases Bool.eq_false_or_eq_true
        (isValid ((xs ++ List.replicate k INVALID).getD m INVALID)) with hb | hb
    · have := (getD_append_decomp hxs).mp hb
      omega
    · exact hb
  unfold insertCmp
  rw [if_neg (by rw [hinv]; exact Bool.false_ne_true)]

/-- `ZeroNode::insert` at any index that stays within the valid prefix —
as the program's binary-search index does, see `bsIdx_le` — preserves row
well-formedness and length, and only adds the new id. -/
lemma zinsert_RowOk {row : List ℕ} {pid : ℕ} (idx : ℕ)
    (h : RowOk row 0) (hlen : row.length = M * 2) (hv : isValid pid = true)
    (hidx : ∀ (xs : List ℕ) (k : ℕ), row = xs ++ List.replicate k INVALID →
      (∀ x ∈ xs, isValid x = true) → idx ≤ xs.length) :
    RowOk (ZeroNode.insert row idx pid) 0 ∧
    (ZeroNode.insert row idx pid).length = row.length ∧
    ∀ e ∈ ZeroNode.insert row idx pid, e ∈ row ∨ e = pid := by
  obtain ⟨xs, k, heq, hxs, -⟩ := h
  have hidx : idx ≤ xs.length := hidx xs k heq hxs
  by_cases hb1 : row.length ≤ idx
  · unfold ZeroNode.insert
    rw [if_pos hb1]
    exact ⟨heq ▸ ⟨xs, k, rfl, hxs, by omega⟩, rfl, fun e he => Or.inl he⟩
  · push_neg at hb1
    by_cases hval : isValid (row.getD idx INVALID) = true
    · have hxlt : idx < xs.length := by
        rw [heq] at hval
        exact (getD_append_decomp hxs).mp hval
      have hres : ZeroNode.insert row idx pid =
          row.take idx ++ pid :: ((row.drop idx).take (M * 2 - 1 - idx) ++
            row.drop (M * 2)) := by
        unfold ZeroNode.insert
        rw [if_neg (by omega), if_pos hval]
      have hdrop : row.drop (M * 2) = [] := List.drop_eq_nil_of_le (by omega)
      refine ⟨?_, ?_, ?_⟩
      · rw [hres, hdrop, List.append_nil]
        refine RowOk_append_valid ?_ (RowOk_cons_valid hv
          (RowOk_take (RowOk_drop (⟨xs, k, heq, hxs, by omega⟩ : RowOk row 0) idx) _))
        intro x hx
        have hxmem : x ∈ xs := by
          have h1 : row.take idx = xs.take idx := by
            rw [heq, List.take_append_eq_append_take]
            have : idx - xs.length = 0 := by omega
            rw [this]
            simp
          rw [h1] at hx
          exact List.mem_of_mem_take hx
        exact hxs x hxmem
      · rw [hres, hdrop, List.append_nil]
        simp only [List.length_append, List.length_cons, List.length_take,
          List.length_drop]
        omega
      · intro e he
        rw [hres, hdrop, List.append_nil] at he
        rcases List.mem_append.mp he with he | he
        · exact Or.inl (List.mem_of_mem_take he)
        · rcases List.mem_cons.mp he with rfl | he
          · exact Or.inr rfl
          · exact Or.inl (List.mem_of_mem_drop (List.mem_of_mem_take he))
    · have hxge : xs.length ≤ idx := by
        by_contra hlt2
        push_neg at hlt2
        refine hval ?_
        rw [heq]
        exact (getD_append_decomp hxs).mpr hlt2
      have hres : ZeroNode.insert row idx pid = row.set idx pid := by
        unfold ZeroNode.insert
        rw [if_neg (by omega), if_neg (by rw [List.getD_eq_getElem?_getD] at hval; simpa using hval)]
      have hrj : RowOk row idx := ⟨xs, k, heq, hxs, by omega⟩
      obtain ⟨hset, hmem⟩ := RowOk_set hrj hv hb1
      exact ⟨hres ▸ RowOk_mono hset (by omega), by rw [hres]; simp, hres ▸ hmem⟩

/-! ### Search-state membership machinery -/

lemma heapPush_mem {a c : Candidate} : ∀ {l : List Candidate},
    a ∈ heapPush c l → a = c ∨ a ∈ l := by
  intro l
  induction l with
  | nil =>
    intro h
    simpa [heapPush] using h
  | cons x xs ih =>
    intro h
    simp only [heapPush] at h
    split at h
    · rcases List.mem_cons.mp h with rfl | h
      · exact Or.inr (List.mem_cons_self _ _)
      · rcases ih h with rfl | h
        · exact Or.inl rfl
        · exact Or.inr (List.mem_cons_of_mem _ h)
    · rcases List.mem_cons.mp h with rfl | h
      · exact Or.inl rfl
      · exact Or.inr h

lemma SIn_reset {T : ℕ → Prop} (s : Search) : SIn T s.reset := by
  refine ⟨?_, ?_, ?_⟩ <;> intro x hx <;> simp [Search.reset] at hx

lemma SIn_push {T : ℕ → Prop} {s : Search} {pid : ℕ} (qd : ℕ → ℤ)
    (h : SIn T s) (hpid : T pid) : SIn T (s.push pid qd) := by
  obtain ⟨h1, h2, h3⟩ := h
  unfold Search.push
  by_cases hv : pid ∈ s.visited
  · rw [if_pos hv]
    exact ⟨h1, h2, h3⟩
  · rw [if_neg hv]
    simp only
    by_cases hm : (⟨qd pid, pid⟩ : Candidate) ∈ s.nearest
    · rw [if_pos hm]
      refine ⟨?_, h2, h3⟩
      intro x hx
      rcases List.mem_cons.mp hx with rfl | hx
      · exact hpid
      · exact h1 x hx
    · rw [if_neg hm]
      by_cases hc : (s.nearest.countP fun x => Candidate.ltb x ⟨qd pid, pid⟩) < s.ef
      · rw [if_pos hc]
        refine ⟨?_, ?_, ?_⟩
        · intro x hx
          rcases List.mem_cons.mp hx with rfl | hx
          · exact hpid
          · exact h1 x hx
        · intro c hc2
          rcases heapPush_mem hc2 with rfl | hc2
          · exact hpid
          · exact h2 c hc2
        · intro c hc2
          rcases (List.mem_insertIdx (List.countP_le_length _)).mp hc2 with rfl | hc2
          · exact hpid
          · exact h3 c hc2
      · rw [if_neg hc]
        refine ⟨?_, h2, h3⟩
        intro x hx
        rcases List.mem_cons.mp hx with rfl | hx
        · exact hpid
        · exact h1 x hx

lemma SIn_foldl_push {T : ℕ → Prop} (qd : ℕ → ℤ) :
    ∀ {l : List ℕ} {s : Search}, (∀ x ∈ l, T x) → SIn T s →
      SIn T (l.foldl (fun st pid => st.push pid qd) s) := by
  intro l
  induction l with
  | nil =>
    intro s _ h
    exact h
  | cons x xs ih =>
    intro s hl h
    simp only [List.foldl_cons]
    exact ih (fun y hy => hl y (List.mem_cons_of_mem x hy))
      (SIn_push qd h (hl x (List.mem_cons_self x xs)))

/-- One unfolded step of `searchLayer` on a nonempty candidate heap. -/
lemma searchLayer_succ_cons (qd : ℕ → ℤ) (view : ℕ → List ℕ) (links fuel : ℕ)
    (v : List ℕ) (c : Candidate) (rest ns : List Candidate) (ef : ℕ) :
    Search.searchLayer qd view links (fuel + 1) (Search.mk v (c :: rest) ns ef) =
      (match ns.getLast? with
      | some furthest =>
        if furthest.distance < c.distance then Search.mk v rest ns ef
        else
          Search.searchLayer qd view links fuel
            (let s'' := (considered view links c.pid).foldl
              (fun st pid => st.push pid qd) (Search.mk v rest ns ef)
            { s'' with nearest := s''.nearest.take s''.ef })
      | none =>
          Search.searchLayer qd view links fuel
            (let s'' := (considered view links c.pid).foldl
              (fun st pid => st.push pid qd) (Search.mk v rest ns ef)
            { s'' with nearest := s''.nearest.take s''.ef })) := rfl

lemma searchLayer_nil (qd : ℕ → ℤ) (view : ℕ → List ℕ) (links fuel : ℕ)
    (v : List ℕ) (ns : List Candidate) (ef : ℕ) :
    Search.searchLayer qd view links fuel (Search.mk v [] ns ef) =
      Search.mk v [] ns ef := by
  cases fuel <;> rfl

lemma SIn_searchLayer {T : ℕ → Prop} (qd : ℕ → ℤ) (view : ℕ → List ℕ)
    (links : ℕ) (hview : ∀ q e, e ∈ nearestRow (view q) → T e) :
    ∀ (fuel : ℕ) {s : Search}, SIn T s →
      SIn T (Search.searchLayer qd view links fuel s) := by
  intro fuel
  induction fuel with
  | zero =>
    intro s h
    exact h
  | succ fuel ih =>
    intro s h
    obtain ⟨v, cs, ns, ef⟩ := s
    obtain ⟨h1, h2, h3⟩ := h
    simp only at h1 h2 h3
    cases cs with
    | nil =>
      rw [searchLayer_nil]
      exact ⟨h1, h2, h3⟩
    | cons c rest =>
      have h2' : ∀ x ∈ rest, T x.pid := fun x hx =>
        h2 x (List.mem_cons_of_mem c hx)
      have hs' : SIn T (Search.mk v rest ns ef) := ⟨h1, h2', h3⟩
      have hgo : SIn T
          (Search.searchLayer qd view links fuel
            (let s'' := (considered view links c.pid).foldl
              (fun st pid => st.push pid qd) (Search.mk v rest ns ef)
            { s'' with nearest := s''.nearest.take s''.ef })) := by
        have hcons : ∀ x ∈ considered view links c.pid, T x := by
          intro x hx
          exact hview c.pid x (List.mem_of_mem_take hx)
        have hfold := SIn_foldl_push qd hcons hs'
        refine ih ⟨hfold.1, hfold.2.1, ?_⟩
        intro x hx
        exact hfold.2.2 x (List.mem_of_mem_take hx)
      rw [searchLayer_succ_cons]
      rcases hn : ns.getLast? with - | furthest
      · simp only [hn]
        exact hgo
      · simp only [hn]
        by_cases hlt : furthest.distance < c.distance
        · rw [if_pos hlt]
          exact hs'
        · rw [if_neg hlt]
          exact hgo

lemma SIn_cull {T : ℕ → Prop} {s : Search} (h : SIn T s) : SIn T s.cull := by
  obtain ⟨-, -, h3⟩ := h
  refine ⟨?_, h3, h3⟩
  intro x hx
  simp only [Search.cull, List.mem_map] at hx
  obtain ⟨c, hc, rfl⟩ := hx
  exact h3 c hc

lemma specAdmitted_mem {D : ℕ → ℕ → ℤ} {x : Candidate} :
    ∀ {w acc : List Candidate}, x ∈ specAdmitted D w acc → x ∈ acc ∨ x ∈ w := by
  intro w
  induction w with
  | nil =>
    intro acc h
    exact Or.inl h
  | cons c rest ih =>
    intro acc h
    simp only [specAdmitted] at h
    split at h
    · exact Or.inl h
    · split at h
      · rcases ih h with h2 | h2
        · rcases List.mem_append.mp h2 with h3 | h3
          · exact Or.inl h3
          · exact Or.inr (by simp at h3; simp [h3])
        · exact Or.inr (List.mem_cons_of_mem c h2)
      · rcases ih h with h2 | h2
        · exact Or.inl h2
        · exact Or.inr (List.mem_cons_of_mem c h2)

lemma specDiscarded_mem {D : ℕ → ℕ → ℤ} {x : Candidate} :
    ∀ {w acc disc : List Candidate},
      x ∈ specDiscarded D w acc disc → x ∈ disc ∨ x ∈ w := by
  intro w
  induction w with
  | nil =>
    intro acc disc h
    exact Or.inl h
  | cons c rest ih =>
    intro acc disc h
    simp only [specDiscarded] at h
    split at h
    · exact Or.inl h
    · split at h
      · rcases ih h with h2 | h2
        · exact Or.inl h2
        · exact Or.inr (List.mem_cons_of_mem c h2)
      · rcases ih h with h2 | h2
        · rcases List.mem_append.mp h2 with h3 | h3
          · exact Or.inl h3
          · exact Or.inr (by simp at h3; simp [h3])
        · exact Or.inr (List.mem_cons_of_mem c h2)

lemma extendFold_mem {T : ℕ → Prop} (qd : ℕ → ℤ) :
    ∀ (l : List ℕ) (acc : List ℕ × List Candidate), (∀ e ∈ l, T e) →
      (∀ x ∈ acc.1, T x) → (∀ c ∈ acc.2, T c.pid) →
      (∀ x ∈ (l.foldl (fun (acc : List ℕ × List Candidate) hop =>
          if hop ∈ acc.1 then acc
          else (hop :: acc.1, acc.2 ++ [⟨qd hop, hop⟩])) acc).1, T x) ∧
      (∀ c ∈ (l.foldl (fun (acc : List ℕ × List Candidate) hop =>
          if hop ∈ acc.1 then acc
          else (hop :: acc.1, acc.2 ++ [⟨qd hop, hop⟩])) acc).2, T c.pid) := by
  intro l
  induction l with
  | nil =>
    intro acc _ h1 h2
    exact ⟨h1, h2⟩
  | cons hop rest ih =>
    intro acc hl h1 h2
    simp only [List.foldl_cons]
    have hhop : T hop := hl hop (List.mem_cons_self hop rest)
    have hrest : ∀ e ∈ rest, T e := fun e he => hl e (List.mem_cons_of_mem hop he)
    by_cases hmem : hop ∈ acc.1
    · rw [if_pos hmem]
      exact ih acc hrest h1 h2
    · rw [if_neg hmem]
      refine ih _ hrest ?_ ?_
      · intro x hx
        rcases List.mem_cons.mp hx with rfl | hx
        · exact hhop
        · exact h1 x hx
      · intro c hc
        rcases List.mem_append.mp hc with hc | hc
        · exact h2 c hc
        · simp only [List.mem_singleton] at hc
          rw [hc]
          exact hhop

lemma extendWorking_mem {T : ℕ → Prop} (qd : ℕ → ℤ) (view : ℕ → List ℕ)
    (hview : ∀ q e, e ∈ nearestRow (view q) → T e) :
    ∀ (ns : List Candidate) (vis : List ℕ) (work : List Candidate),
      (∀ c ∈ ns, T c.pid) → (∀ x ∈ vis, T x) → (∀ c ∈ work, T c.pid) →
      (∀ x ∈ (extendWorking qd view ns vis work).1, T x) ∧
      (∀ c ∈ (extendWorking qd view ns vis work).2, T c.pid) := by
  intro ns
  induction ns with
  | nil =>
    intro vis work _ h1 h2
    exact ⟨h1, h2⟩
  | cons c rest ih =>
    intro vis work hns h1 h2
    simp only [extendWorking]
    have hc : T c.pid := hns c (List.mem_cons_self c rest)
    have hrest : ∀ x ∈ rest, T x.pid := fun x hx =>
      hns x (List.mem_cons_of_mem c hx)
    have hwork' : ∀ x ∈ work ++ [c], T x.pid := by
      intro x hx
      rcases List.mem_append.mp hx with hx | hx
      · exact h2 x hx
      · simp only [List.mem_singleton] at hx
        rw [hx]
        exact hc
    obtain ⟨hf1, hf2⟩ := extendFold_mem qd (nearestRow (view c.pid)) (vis, work ++ [c])
      (fun e he => hview c.pid e he) h1 hwork'
    exact ih _ _ hrest hf1 hf2

lemma SIn_select_heuristic {T : ℕ → Prop} {s : Search} (D : ℕ → ℕ → ℤ)
    (qd : ℕ → ℤ) (view : ℕ → List ℕ) (params : Heuristic)
    (hview : params.extend_candidates = true →
      ∀ q e, e ∈ nearestRow (view q) → T e) (h : SIn T s) :
    SIn T (s.select_heuristic D qd view params) := by
  obtain ⟨h1, h2, h3⟩ := h
  have hvis : ∀ x ∈ (if params.extend_candidates then
      extendWorking qd view s.nearest s.visited [] else (s.visited, s.nearest)).1, T x := by
    by_cases hext : params.extend_candidates
    · rw [if_pos hext]
      exact (extendWorking_mem qd view (hview hext) s.nearest s.visited [] h3 h1
        (by simp)).1
    · rw [if_neg hext]
      exact h1
  have hcore : ∀ (w : List Candidate), (∀ x ∈ w, T x.pid) →
      ∀ c ∈ (if params.keep_pruned then
        keepPrunedLoop (specDiscarded D w [] []) (specAdmitted D w [])
      else specAdmitted D w []), T c.pid := by
    intro w hw c hc
    by_cases hkp : params.keep_pruned
    · simp only [hkp, if_true, keepPrunedLoop_eq_take] at hc
      rcases List.mem_append.mp hc with hc | hc
      · rcases specAdmitted_mem hc with hc2 | hc2
        · simp at hc2
        · exact hw c hc2
      · have hc2 := List.mem_of_mem_take hc
        rcases specDiscarded_mem hc2 with hc3 | hc3
        · simp at hc3
        · exact hw c hc3
    · simp only [hkp, if_false, Bool.false_eq_true] at hc
      rcases specAdmitted_mem hc with hc2 | hc2
      · simp at hc2
      · exact hw c hc2
  have hnear : ∀ c ∈ (s.select_heuristic D qd view params).nearest, T c.pid := by
    intro c hc
    unfold Search.select_heuristic at hc
    simp only [admitLoop_eq_spec] at hc
    by_cases hext : params.extend_candidates <;>
      simp only [hext, if_true, if_false, Bool.false_eq_true] at hc
    · refine hcore _ ?_ c hc
      intro x hx
      rw [List.mem_mergeSort] at hx
      exact (extendWorking_mem qd view (hview (by assumption)) s.nearest s.visited [] h3 h1
        (by simp)).2 x hx
    · exact hcore _ h3 c hc
  refine ⟨?_, ?_, hnear⟩
  · intro x hx
    unfold Search.select_heuristic at hx
    simp only at hx
    exact hvis x hx
  · intro c hc
    unfold Search.select_heuristic at hc
    simp only at hc
    exact h2 c hc

lemma SIn_add_neighbor {T : ℕ → Prop} {s : Search} (D : ℕ → ℕ → ℤ)
    (new : ℕ) (current : List ℕ) (q : ℕ) (view : ℕ → List ℕ)
    (params : Heuristic) (hnew : T new) (hcur : ∀ x ∈ current, T x)
    (hview : params.extend_candidates = true →
      ∀ q' e, e ∈ nearestRow (view q') → T e) :
    SIn T (s.add_neighbor_heuristic D new current q view params) := by
  unfold Search.add_neighbor_heuristic
  exact SIn_select_heuristic D (D q) view params hview
    (SIn_foldl_push (D q) hcur (SIn_push (D q) (SIn_reset s) hnew))

lemma SIn_insertDescend {T : ℕ → Prop} (D : ℕ → ℕ → ℤ) (st : BuildState)
    (efc p L num fuel : ℕ)
    (hzview : ∀ q e, e ∈ nearestRow (zeroView st q) → T e)
    (huview : ∀ i q e, e ∈ nearestRow (upperView st i q) → T e) :
    ∀ (curs : List ℕ) {s : Search}, SIn T s →
      SIn T (insertDescend D st efc p L num fuel curs s) := by
  intro curs
  induction curs with
  | nil =>
    intro s h
    exact h
  | cons cur rest ih =>
    intro s h
    simp only [insertDescend]
    have h1 : SIn T { s with ef := if cur ≤ L then efc else 1 } := h
    by_cases hcur : L < cur
    · rw [if_pos hcur]
      exact ih (SIn_cull (SIn_searchLayer (D p) _ num (huview (cur - 1)) fuel h1))
    · rw [if_neg hcur]
      exact SIn_searchLayer (D p) _ num hzview fuel h1

/-! ### Graph invariant machinery -/

lemma GraphInv_mono {n : ℕ} {S S' : ℕ → Prop} {st : BuildState}
    (hinv : GraphInv n S st) (hss : ∀ x, S x → S' x) : GraphInv n S' st := by
  refine ⟨hinv.zlen, hinv.zrow, ?_, hinv.urow, ?_⟩
  · intro i e he
    obtain ⟨h1, h2, h3⟩ := hinv.zent i e he
    exact ⟨hss e h1, h2, h3⟩
  · intro j i e he
    obtain ⟨h1, h2, h3⟩ := hinv.uent j i e he
    exact ⟨hss e h1, h2, h3⟩

lemma GraphInv_congr {n : ℕ} {S S' : ℕ → Prop} {st : BuildState}
    (hinv : GraphInv n S st) (hss : ∀ x, S x ↔ S' x) : GraphInv n S' st :=
  GraphInv_mono hinv fun x hx => (hss x).mp hx

lemma zeroView_mem {n : ℕ} {S : ℕ → Prop} {st : BuildState}
    (hinv : GraphInv n S st) {i : ℕ} (hi : i < n) : zeroView st i ∈ st.zero := by
  unfold zeroView
  have hlt : i < st.zero.length := by rw [hinv.zlen]; exact hi
  rw [List.getD_eq_getElem?_getD, List.getElem?_eq_getElem hlt]
  exact List.getElem_mem hlt

lemma zeroView_set_self {st : BuildState} {a : ℕ} {row : List ℕ}
    (h : a < st.zero.length) :
    zeroView { st with zero := st.zero.set a row } a = row := by
  unfold zeroView
  simp only
  rw [List.getD_eq_getElem?_getD, List.getElem?_set_self (by simpa using h)]
  rfl

lemma zeroView_set_other {st : BuildState} {a i : ℕ} {row : List ℕ}
    (h : i ≠ a) :
    zeroView { st with zero := st.zero.set a row } i = zeroView st i := by
  unfold zeroView
  simp only
  rw [List.getD_eq_getElem?_getD, List.getElem?_set_ne (fun he => h he.symm),
    List.getD_eq_getElem?_getD]

lemma upperView_setZero {st : BuildState} {a : ℕ} {row : List ℕ} (j i : ℕ) :
    upperView { st with zero := st.zero.set a row } j i = upperView st j i := rfl

/-- Replacing one zero row by a well-formed row whose neighbors satisfy
the discipline preserves the construction invariant. -/
lemma GraphInv_setZero {n : ℕ} {S : ℕ → Prop} {st : BuildState}
    (hinv : GraphInv n S st) {a : ℕ} {row : List ℕ} (ha : a < n)
    (hlen : row.length = M * 2) (hrok : RowOk row 0)
    (hent : ∀ e ∈ nearestRow row, S e ∧ e ≠ a ∧ e < n) (hSa : S a) :
    GraphInv n S { st with zero := st.zero.set a row } := by
  have hal : a < st.zero.length := by rw [hinv.zlen]; exact ha
  refine ⟨by simpa using hinv.zlen, ?_, ?_, hinv.urow, ?_⟩
  · intro r hr
    rcases List.mem_or_eq_of_mem_set hr with hr | rfl
    · exact hinv.zrow r hr
    · exact ⟨hlen, hrok⟩
  · intro i e he
    by_cases hia : i = a
    · subst hia
      rw [zeroView_set_self hal] at he
      exact hent e he
    · rw [zeroView_set_other hia] at he
      exact hinv.zent i e he
  · intro j i e he
    rw [upperView_setZero] at he
    exact hinv.uent j i e he

lemma enumFrom_consec : ∀ (l : List Candidate) (j : ℕ),
    pairsConsecFrom j (List.enumFrom j l) := by
  intro l
  induction l with
  | nil => intro j; trivial
  | cons c rest ih => intro j; exact ⟨rfl, ih (j + 1)⟩

lemma enumFrom_snd_mem : ∀ (l : List Candidate) (j : ℕ)
    (pr : ℕ × Candidate), pr ∈ List.enumFrom j l → pr.2 ∈ l := by
  intro l
  induction l with
  | nil => intro j pr h; simp at h
  | cons c rest ih =>
    intro j pr h
    rcases List.mem_cons.mp h with rfl | h
    · exact List.mem_cons_self c rest
    · exact List.mem_cons_of_mem c (ih (j + 1) pr h)

/-- The reciprocal-link loop preserves the construction invariant: each
selected candidate's row is rewritten (heuristic) or shift-inserted
(simple) to a well-formed row whose neighbors are started points other
than itself, and the new node's own row gains the candidates one slot at
a time. `S` holds of the points started before `p`. -/
lemma insertFoundLoop_inv {n : ℕ} {S : ℕ → Prop} (D : ℕ → ℕ → ℤ)
    (heuristic : Option Heuristic) (p : ℕ)
    (hext : ∀ hp, heuristic = some hp → hp.extend_candidates = false)
    (hSn : ∀ x, S x → x < n) (hp : p < n) (hpS : ¬ S p) (hnI : n ≤ INVALID) :
    ∀ (pairs : List (ℕ × Candidate)) (j : ℕ) (st : BuildState) (ins : Search),
      pairsConsecFrom j pairs →
      j + pairs.length ≤ M * 2 →
      (∀ pr ∈ pairs, S pr.2.pid) →
      GraphInv n (fun x => S x ∨ x = p) st →
      RowOk (zeroView st p) j →
      GraphInv n (fun x => S x ∨ x = p)
        (insertFoundLoop D heuristic p pairs st ins).1 := by
  have hvalid : ∀ x, x < n → isValid x = true := by
    intro x hx
    simp only [isValid, decide_eq_true_eq]
    omega
  intro pairs
  induction pairs with
  | nil =>
    intro j st ins _ _ _ hinv _
    cases heuristic <;> exact hinv
  | cons pr rest ih =>
    intro j st ins hcons hlen hmem hinv hrow
    obtain ⟨i0, c⟩ := pr
    simp only [pairsConsecFrom] at hcons
    obtain ⟨hj, hcons'⟩ := hcons
    subst hj
    have hcS : S c.pid := hmem _ (List.mem_cons_self _ _)
    have hcn : c.pid < n := hSn _ hcS
    have hcp : c.pid ≠ p := fun h => hpS (h ▸ hcS)
    have hpc : p ≠ c.pid := fun h => hcp h.symm
    have hrowc := hinv.zrow _ (zeroView_mem hinv hcn)
    have hrowp := hinv.zrow _ (zeroView_mem hinv hp)
    have hjlt : i0 < M * 2 := by
      simp only [List.length_cons] at hlen
      omega
    have hczero : c.pid < st.zero.length := by rw [hinv.zlen]; exact hcn
    -- the two write steps, shared by both branches
    have hstep : ∀ (newrow : List ℕ) (ins2 : Search),
        newrow.length = M * 2 → RowOk newrow 0 →
        (∀ e ∈ nearestRow newrow, (S e ∨ e = p) ∧ e ≠ c.pid ∧ e < n) →
        GraphInv n (fun x => S x ∨ x = p)
          (insertFoundLoop D heuristic p rest
            { { st with zero := st.zero.set c.pid newrow } with
              zero := ({ st with zero := st.zero.set c.pid newrow } :
                BuildState).zero.set p
                (ZeroNode.set
                  (zeroView { st with zero := st.zero.set c.pid newrow } p)
                  i0 c.pid) } ins2).1 := by
      intro newrow ins2 hnlen hnrok hnent
      set st1 : BuildState := { st with zero := st.zero.set c.pid newrow }
        with hst1
      have hinv1 : GraphInv n (fun x => S x ∨ x = p) st1 :=
        GraphInv_setZero hinv hcn hnlen hnrok hnent (Or.inl hcS)
      have hrow1 : RowOk (zeroView st1 p) i0 := by
        rw [hst1, zeroView_set_other hpc]
        exact hrow
      have hlen1 : (zeroView st1 p).length = M * 2 :=
        (hinv1.zrow _ (zeroView_mem hinv1 hp)).1
      obtain ⟨hsetrok, hsetmem⟩ :=
        RowOk_set hrow1 (hvalid c.pid hcn) (by omega)
      have hpzero1 : p < st1.zero.length := by rw [hinv1.zlen]; exact hp
      have hinv2 : GraphInv n (fun x => S x ∨ x = p)
          { st1 with zero := st1.zero.set p (ZeroNode.set (zeroView st1 p) i0 c.pid) } := by
        refine GraphInv_setZero hinv1 hp ?_ ?_ ?_ (Or.inr rfl)
        · unfold ZeroNode.set
          rw [List.length_set]
          exact hlen1
        · exact RowOk_mono hsetrok (by omega)
        · intro e he
          have hev : isValid e = true := List.of_mem_filter he
          have hem : e ∈ ZeroNode.set (zeroView st1 p) i0 c.pid :=
            List.mem_of_mem_filter he
          rcases hsetmem e hem with hold | rfl
          · exact hinv1.zent p e (List.mem_filter.mpr ⟨hold, hev⟩)
          · exact ⟨Or.inl hcS, hcp, hcn⟩
      have hrow2 : RowOk (zeroView
          { st1 with zero := st1.zero.set p (ZeroNode.set (zeroView st1 p) i0 c.pid) } p)
          (i0 + 1) := by
        rw [zeroView_set_self hpzero1]
        exact hsetrok
      exact ih (i0 + 1) _ ins2 hcons' (by simp only [List.length_cons] at hlen; omega)
        (fun q hq => hmem q (List.mem_cons_of_mem _ hq)) hinv2 hrow2
    cases heuristic with
    | none =>
      simp only [insertFoundLoop]
      have hzi := zinsert_RowOk
        (bsearchIdx (insertCmp (fun e => D c.pid e) c.distance)
          (zeroView st c.pid))
        hrowc.2 hrowc.1 (hvalid p hp)
        (fun xs k hxk hxv => by
          rw [hxk]
          exact bsIdx_le (fun e => D c.pid e) c.distance xs k hxv)
      refine hstep _ ins ?_ ?_ ?_
      · rw [hzi.2.1]
        exact hrowc.1
      · exact hzi.1
      · intro e he
        have hev : isValid e = true := List.of_mem_filter he
        have hem := List.mem_of_mem_filter he
        rcases hzi.2.2 e hem with hold | rfl
        · obtain ⟨h1, h2, h3⟩ :=
            hinv.zent c.pid e (List.mem_filter.mpr ⟨hold, hev⟩)
          exact ⟨h1, h2, h3⟩
        · exact ⟨Or.inr rfl, hpc, hp⟩
    | some hparams =>
      simp only [insertFoundLoop]
      set ins2 := ins.add_neighbor_heuristic D p
        (nearestRow (zeroView st c.pid)) c.pid (zeroView st) hparams with hins2
      have hT : SIn (fun x => (S x ∨ x = p) ∧ x ≠ c.pid) ins2 := by
        refine SIn_add_neighbor D p _ c.pid _ hparams ⟨Or.inr rfl, hpc⟩ ?_ ?_
        · intro x hx
          obtain ⟨h1, h2, h3⟩ := hinv.zent c.pid x hx
          exact ⟨h1, h2⟩
        · intro habs
          rw [hext hparams rfl] at habs
          exact absurd habs (by simp)
      have hpids : ∀ x ∈ ins2.nearest.map Candidate.pid,
          (S x ∨ x = p) ∧ x ≠ c.pid ∧ x < n := by
        intro x hx
        obtain ⟨cand, hcand, rfl⟩ := List.mem_map.mp hx
        obtain ⟨h1, h2⟩ := hT.2.2 cand hcand
        refine ⟨h1, h2, ?_⟩
        rcases h1 with h1 | rfl
        · exact hSn _ h1
        · exact hp
      refine hstep _ ins2 ?_ ?_ ?_
      · rw [rewrite_length]
        exact hrowc.1
      · refine rewrite_RowOk _ _ hrowc.2 ?_
        intro x hx
        exact hvalid x (hpids x hx).2.2
      · intro e he
        have hev : isValid e = true := List.of_mem_filter he
        have hem := List.mem_of_mem_filter he
        have hexs := rewrite_mem _ _ hrowc.2 e hem hev
        obtain ⟨h1, h2, h3⟩ := hpids e hexs
        exact ⟨h1, h2, h3⟩

/-- Inserting one unstarted point `p < n` into a state satisfying the
construction invariant for the started set `S` yields a state satisfying
it for `S ∪ {p}`, for any scratch pair, layer and fuel (default-config
heuristic, i.e. `extend_candidates` off). -/
lemma insertPoint_inv {n : ℕ} {S : ℕ → Prop} (D : ℕ → ℕ → ℤ)
    (meta : List LayerMeta) (efc : ℕ) (heuristic : Option Heuristic)
    (fuel : ℕ) {st : BuildState} (p L : ℕ) (pair : Search × Search)
    (hext : ∀ hp, heuristic = some hp → hp.extend_candidates = false)
    (hinv : GraphInv n S st) (hSn : ∀ x, S x → x < n) (hS0 : S 0)
    (hp : p < n) (hpS : ¬ S p) (hnI : n ≤ INVALID) :
    GraphInv n (fun x => S x ∨ x = p)
      (insertPoint D meta efc heuristic fuel st p L pair).1 := by
  have hs1 : SIn S (insertDescend D st efc p L (insertNum L) fuel
      (metaDescending meta) ((pair.1.reset).push 0 (D p))) := by
    refine SIn_insertDescend D st efc p L (insertNum L) fuel ?_ ?_ _
      (SIn_push (D p) (SIn_reset pair.1) hS0)
    · intro q e he
      exact (hinv.zent q e he).1
    · intro i q e he
      exact (hinv.uent i q e he).1
  have hinv' : GraphInv n (fun x => S x ∨ x = p) st :=
    GraphInv_mono hinv fun x hx => Or.inl hx
  have hrow0 : RowOk (zeroView st p) 0 :=
    (hinv.zrow _ (zeroView_mem hinv hp)).2
  have henum : ∀ l : List Candidate, l.enum = List.enumFrom 0 l :=
    fun l => rfl
  cases heuristic with
  | none =>
    simp only [insertPoint]
    set found := ((insertDescend D st efc p L (insertNum L) fuel
      (metaDescending meta) ((pair.1.reset).push 0 (D p))).select_simple).take
      (M * 2) with hfound
    refine insertFoundLoop_inv D none p (fun hp2 h2 => by cases h2) hSn hp hpS
      hnI found.enum 0 st _ ?_ ?_ ?_ hinv' hrow0
    · rw [henum]
      exact enumFrom_consec found 0
    · rw [henum, List.enumFrom_length]
      have : found.length ≤ M * 2 := by
        rw [hfound]
        simp [List.length_take]
      omega
    · intro pr hpr
      have hmem : pr.2 ∈ found := enumFrom_snd_mem found 0 pr (henum found ▸ hpr)
      have hmem2 : pr.2 ∈ (insertDescend D st efc p L (insertNum L) fuel
          (metaDescending meta) ((pair.1.reset).push 0 (D p))).nearest := by
        rw [hfound] at hmem
        exact List.mem_of_mem_take hmem
      exact hs1.2.2 _ hmem2
  | some hparams =>
    simp only [insertPoint]
    set search2 := (insertDescend D st efc p L (insertNum L) fuel
      (metaDescending meta) ((pair.1.reset).push 0 (D p))).select_heuristic D
      (D p) (zeroView st) hparams with hsearch2
    have hs2 : SIn S search2 := by
      rw [hsearch2]
      refine SIn_select_heuristic D (D p) (zeroView st) hparams ?_ hs1
      intro habs
      rw [hext hparams rfl] at habs
      exact absurd habs (by simp)
    refine insertFoundLoop_inv D (some hparams) p hext hSn hp hpS
      hnI search2.nearest.enum 0 st _ ?_ ?_ ?_ hinv' hrow0
    · rw [henum]
      exact enumFrom_consec _ 0
    · rw [henum, List.enumFrom_length]
      have : search2.nearest.length ≤ M * 2 := by
        rw [hsearch2]
        exact select_heuristic_len _ D (D p) (zeroView st) hparams
      omega
    · intro pr hpr
      have hmem : pr.2 ∈ search2.nearest :=
        enumFrom_snd_mem _ 0 pr (henum search2.nearest ▸ hpr)
      exact hs2.2.2 _ hmem

/-- Sequentially inserting the consecutive points `a, a+1, …, a+cnt-1`
into a state satisfying the invariant for the started set `{0, …, a-1}`
yields the invariant for `{0, …, a+cnt-1}`, for any scratch pool. -/
lemma insertLayerPoints_inv {n : ℕ} (D : ℕ → ℕ → ℤ) (meta : List LayerMeta)
    (efc : ℕ) (heuristic : Option Heuristic) (fuel L : ℕ)
    (hext : ∀ hp, heuristic = some hp → hp.extend_candidates = false)
    (hnI : n ≤ INVALID) :
    ∀ (cnt a : ℕ) (st : BuildState) (pool : List (Search × Search)),
      1 ≤ a → a + cnt ≤ n → GraphInv n (fun x => x < a) st →
      GraphInv n (fun x => x < a + cnt)
        (insertLayerPoints D meta efc heuristic fuel L
          (List.range' a cnt) st pool).1 := by
  intro cnt
  induction cnt with
  | zero =>
    intro a st pool _ _ hinv
    simpa using hinv
  | succ cnt ih =>
    intro a st pool ha hbound hinv
    rw [List.range'_succ]
    simp only [insertLayerPoints]
    have hstep : GraphInv n (fun x => x < a + 1)
        (insertPoint D meta efc heuristic fuel st a L (poolPop pool).1).1 := by
      refine GraphInv_congr (insertPoint_inv D meta efc heuristic fuel a L
        (poolPop pool).1 hext hinv (fun x hx => by omega) (by omega)
        (by omega) (by omega) hnI) ?_
      intro x
      omega
    exact GraphInv_congr
      (ih (a + 1)
        (insertPoint D meta efc heuristic fuel st a L (poolPop pool).1).1
        ((insertPoint D meta efc heuristic fuel st a L (poolPop pool).1).2 ::
          (poolPop pool).2)
        (by omega) (by omega) hstep)
      (fun x => by omega)

/-- Snapshotting the zero layer into an upper slice preserves the
construction invariant: each copied row is an `M`-truncated prefix of the
corresponding zero row. -/
lemma GraphInv_snapshot {n : ℕ} {S : ℕ → Prop} {st : BuildState}
    (hinv : GraphInv n S st) (layer stop : ℕ) :
    GraphInv n S (snapshot st layer stop) := by
  set rows := (st.zero.take stop).map fun r => r.take M with hrows
  have hzv : ∀ i, zeroView (snapshot st layer stop) i = zeroView st i :=
    fun i => rfl
  have key : ∀ i, rows.getD i [] = [] ∨
      rows.getD i [] = (zeroView st i).take M := by
    intro i
    by_cases hi : i < rows.length
    · right
      have hi2 : i < (st.zero.take stop).length := by
        simpa [hrows] using hi
      have hi3 : i < st.zero.length := by
        simp only [List.length_take] at hi2
        omega
      have histop : i < stop := by
        simp only [List.length_take] at hi2
        omega
      rw [List.getD_eq_getElem?_getD]
      rw [hrows, List.getElem?_map, List.getElem?_take, if_pos histop,
        List.getElem?_eq_getElem hi3]
      have hzv2 : zeroView st i = st.zero[i] := List.getD_eq_getElem st.zero [] hi3
      rw [hzv2]
      rfl
    · left
      rw [List.getD_eq_getElem?_getD, List.getElem?_eq_none (by omega)]
      rfl
  have hup : ∀ j i, upperView (snapshot st layer stop) j i =
      if j = layer - 1 ∧ layer - 1 < st.upper.length then rows.getD i []
      else upperView st j i := by
    intro j i
    by_cases hj : j = layer - 1
    · subst hj
      by_cases hjl : layer - 1 < st.upper.length
      · rw [if_pos ⟨rfl, hjl⟩]
        unfold upperView snapshot
        simp only
        congr 1
        rw [List.getD_eq_getElem?_getD,
          List.getElem?_set_self (by simpa using hjl)]
        rfl
      · rw [if_neg (by tauto)]
        unfold upperView snapshot
        simp only
        rw [List.set_eq_of_length_le (by omega)]
    · rw [if_neg (by tauto)]
      unfold upperView snapshot
      simp only
      congr 1
      rw [List.getD_eq_getElem?_getD,
        List.getElem?_set_ne (fun hc => hj hc.symm), ← List.getD_eq_getElem?_getD]
  refine ⟨hinv.zlen, hinv.zrow, ?_, ?_, ?_⟩
  · intro i e he
    rw [hzv] at he
    exact hinv.zent i e he
  · intro lay hlay r hr
    simp only [snapshot] at hlay
    rcases List.mem_or_eq_of_mem_set hlay with hlay | rfl
    · exact hinv.urow lay hlay r hr
    · obtain ⟨r0, hr0, rfl⟩ := List.mem_map.mp hr
      have hr0z : r0 ∈ st.zero := List.mem_of_mem_take hr0
      obtain ⟨hlen, hrok⟩ := hinv.zrow r0 hr0z
      refine ⟨?_, RowOk_take hrok M⟩
      simp [List.length_take]
  · intro j i e he
    rw [hup j i] at he
    by_cases hcase : j = layer - 1 ∧ layer - 1 < st.upper.length
    · rw [if_pos hcase] at he
      rcases key i with hk | hk
      · rw [hk] at he
        simp [nearestRow] at he
      · rw [hk] at he
        have hev : isValid e = true := List.of_mem_filter he
        have hem : e ∈ (zeroView st i).take M := List.mem_of_mem_filter he
        have hem2 : e ∈ zeroView st i := List.mem_of_mem_take hem
        exact hinv.zent i e (List.mem_filter.mpr ⟨hem2, hev⟩)
    · rw [if_neg hcase] at he
      exact hinv.uent j i e he

/-- Every record list a successful `metaLoop` run appends obeys the
`total`/`max` chain discipline — for every `ml`, with no range
hypothesis: the fields are written straight from the loop state. -/
lemma metaLoop_chainOk (ml : ℚ) : ∀ (fuel num nb : ℕ)
    (inner out : List LayerMeta),
    metaLoop ml fuel num nb inner = some out →
    ∃ rest, out = inner ++ rest ∧ chainOk ml num rest := by
  intro fuel
  induction fuel with
  | zero =>
    intro num nb inner out h
    cases h
  | succ fuel ih =>
    intro num nb inner out h
    rw [metaLoop] at h
    by_cases hz : nextCount ml num = 0
    · rw [if_pos hz] at h
      obtain rfl : inner ++ [⟨num - nextCount ml num, num, nb,
          nb + num * M * (if inner.length = 0 then 2 else 1)⟩] = out :=
        Option.some.inj h
      refine ⟨_, rfl, rfl, rfl, ?_⟩
      rw [if_pos hz]
    · rw [if_neg hz] at h
      obtain ⟨rest', hout, hok⟩ := ih _ _ _ _ h
      refine ⟨⟨num - nextCount ml num, num, nb,
        nb + num * M * (if inner.length = 0 then 2 else 1)⟩ :: rest',
        ?_, rfl, rfl, ?_⟩
      · rw [hout, List.append_assoc]
        rfl
      · rw [if_neg hz]
        exact hok

/-- The records of any successful `Meta::new` run obey the chain
discipline from `n`, for every `ml`. -/
lemma MetaNew_chainOk (ml : ℚ) (n : ℕ) (meta : List LayerMeta)
    (h : Meta.new ml n = some meta) : chainOk ml n meta := by
  obtain ⟨rest, hout, hok⟩ := metaLoop_chainOk ml (n + 1) n 0 [] meta h
  rw [List.nil_append] at hout
  rw [hout]
  exact hok

lemma nextCount_ne_zero_M_le {ml : ℚ} {num : ℕ} (h : nextCount ml num ≠ 0) :
    M ≤ nextCount ml num := by
  unfold nextCount at h ⊢
  by_cases hc : ratTruncNat num ml < M
  · rw [if_pos hc] at h
    exact absurd rfl h
  · rw [if_neg hc]
    omega

/-- For `ml ≥ 1` (as `den ≤ num` on the reduced fraction) the truncated
product never shrinks the node count. -/
lemma ratTruncNat_ge_self {ml : ℚ} (hml : (ml.den : ℤ) ≤ ml.num) (num : ℕ) :
    num ≤ ratTruncNat num ml := by
  unfold ratTruncNat
  have hden : 0 < ml.den := ml.pos
  have h1 : (num : ℤ) * ml.den ≤ (num : ℤ) * ml.num :=
    mul_le_mul_of_nonneg_left hml (by positivity)
  have h3 : num * ml.den ≤ ((num : ℤ) * ml.num).toNat := by
    have h4 : ((num * ml.den : ℕ) : ℤ) ≤ (num : ℤ) * ml.num := by
      push_cast
      exact h1
    omega
  exact (Nat.le_div_iff_mul_le hden).mpr h3

/-- For `ml ≥ 1`, once the node count is at least `M` the clamp never
fires, so the chain can never reach the terminating `next = 0` record:
no finite record list satisfies the discipline. -/
lemma chainOk_ge_one_false {ml : ℚ} (hml : (ml.den : ℤ) ≤ ml.num) :
    ∀ (rest : List LayerMeta) (num : ℕ), M ≤ num →
      chainOk ml num rest → False := by
  intro rest
  induction rest with
  | nil =>
    intro num _ hok
    cases hok
  | cons r rest' ih =>
    intro num hM hok
    obtain ⟨-, -, hcond⟩ := hok
    have hge : num ≤ nextCount ml num := by
      have h0 := ratTruncNat_ge_self hml num
      have hcond : ¬ ratTruncNat num ml < M :=
        Nat.not_lt.mpr (le_trans hM h0)
      unfold nextCount
      rw [if_neg hcond]
      exact h0
    have hMpos : 0 < M := by decide
    have hz : nextCount ml num ≠ 0 := by omega
    rw [if_neg hz] at hcond
    exact ih (nextCount ml num) (by omega) hcond

/-- If the clamped next count ever exceeds the current count, the decay
factor is at least `1`. -/
lemma nextCount_gt_den_le_num {ml : ℚ} {num : ℕ} (h1n : 1 ≤ num)
    (hgt : num < nextCount ml num) : (ml.den : ℤ) ≤ ml.num := by
  have hden : 0 < ml.den := ml.pos
  have hgt2 : num < ratTruncNat num ml := by
    unfold nextCount at hgt
    by_cases hc : ratTruncNat num ml < M
    · rw [if_pos hc] at hgt
      omega
    · rw [if_neg hc] at hgt
      exact hgt
  unfold ratTruncNat at hgt2
  have h3 : (num + 1) * ml.den ≤ ((num : ℤ) * ml.num).toNat :=
    (Nat.le_div_iff_mul_le hden).mp (by omega)
  have hpos : 0 < ((num : ℤ) * ml.num).toNat := by
    have h5 : 1 ≤ (num + 1) * ml.den :=
      Nat.one_le_iff_ne_zero.mpr (Nat.mul_ne_zero (by omega) (by omega))
    omega
  have hnumpos : 0 < ml.num := by
    by_contra hle
    push_neg at hle
    have hprod : (num : ℤ) * ml.num ≤ 0 :=
      mul_nonpos_of_nonneg_of_nonpos (by positivity) hle
    rw [Int.toNat_of_nonpos hprod] at hpos
    omega
  have hcast : ((num : ℤ) * ml.num).toNat = num * ml.num.toNat := by
    have h6 : ml.num = (ml.num.toNat : ℤ) := (Int.toNat_of_nonneg hnumpos.le).symm
    nth_rewrite 1 [h6]
    rw [← Nat.cast_mul, Int.toNat_natCast]
  rw [hcast] at h3
  have hlt : ml.den < ml.num.toNat := by
    have h5 : num * ml.den < num * ml.num.toNat := by
      have : num * ml.den + ml.den ≤ num * ml.num.toNat := by
        calc num * ml.den + ml.den = (num + 1) * ml.den := by ring
          _ ≤ num * ml.num.toNat := h3
      omega
    exact Nat.lt_of_mul_lt_mul_left h5
  omega

/-- The indexed consequences of the chain discipline, for every `ml`:
the head count, the per-index recurrence, termination at the last index,
and per-record bounds. The non-increase of the counts needs no range
hypothesis on `ml`: a step that grew the count would force `ml ≥ 1`, and
then the clamp could never fire again, contradicting the chain's
terminating record (`chainOk_ge_one_false`). -/
lemma chainOk_facts (ml : ℚ) :
    ∀ (meta : List LayerMeta) (num : ℕ), 1 ≤ num → chainOk ml num meta →
      (meta.getD 0 default).total = num ∧
      (∀ L, L + 1 < meta.length →
        (meta.getD (L + 1) default).total =
          nextCount ml (meta.getD L default).total ∧
        nextCount ml (meta.getD L default).total ≠ 0) ∧
      nextCount ml (meta.getD (meta.length - 1) default).total = 0 ∧
      (∀ L, L < meta.length →
        (meta.getD L default).max = (meta.getD L default).total -
          nextCount ml (meta.getD L default).total ∧
        1 ≤ (meta.getD L default).total ∧
        (meta.getD L default).total ≤ num ∧
        nextCount ml (meta.getD L default).total ≤
          (meta.getD L default).total) := by
  intro meta
  induction meta with
  | nil =>
    intro num _ hok
    cases hok
  | cons r rest ih =>
    intro num h1n hok
    obtain ⟨htot, hmax, hcond⟩ := hok
    by_cases hz : nextCount ml num = 0
    · rw [if_pos hz] at hcond
      subst hcond
      refine ⟨htot, ?_, ?_, ?_⟩
      · intro L hL
        simp at hL
      · simp only [List.length_cons, List.length_nil, Nat.add_sub_cancel,
          List.getD_cons_zero]
        rw [htot]
        exact hz
      · intro L hL
        have hL0 : L = 0 := by
          simp only [List.length_cons, List.length_nil] at hL
          omega
        subst hL0
        simp only [List.getD_cons_zero]
        rw [htot]
        exact ⟨hmax, h1n, le_refl num, by omega⟩
    · rw [if_neg hz] at hcond
      have hnext1 : 1 ≤ nextCount ml num := Nat.one_le_iff_ne_zero.mpr hz
      have hlen : nextCount ml num ≤ num := by
        by_contra hgtc
        push_neg at hgtc
        exact chainOk_ge_one_false (nextCount_gt_den_le_num h1n hgtc) rest
          (nextCount ml num) (nextCount_ne_zero_M_le hz) hcond
      obtain ⟨ih0, ihstep, ihlast, ihbound⟩ := ih (nextCount ml num) hnext1 hcond
      have hne : rest ≠ [] := by
        rintro rfl
        cases hcond
      have hlen1 : 1 ≤ rest.length := List.length_pos.mpr hne
      refine ⟨htot, ?_, ?_, ?_⟩
      · intro L hL
        cases L with
        | zero =>
          simp only [List.getD_cons_zero, List.getD_cons_succ]
          rw [htot]
          exact ⟨ih0, hz⟩
        | succ L' =>
          simp only [List.getD_cons_succ]
          refine ihstep L' ?_
          simp only [List.length_cons] at hL
          omega
      · have hidx : (r :: rest).length - 1 = (rest.length - 1) + 1 := by
          simp only [List.length_cons]
          omega
        rw [hidx, List.getD_cons_succ]
        exact ihlast
      · intro L hL
        cases L with
        | zero =>
          simp only [List.getD_cons_zero]
          rw [htot]
          exact ⟨hmax, h1n, le_refl num, hlen⟩
        | succ L' =>
          simp only [List.getD_cons_succ]
          obtain ⟨hm, h1t, hle, hle4⟩ := ihbound L' (by
            simp only [List.length_cons] at hL
            omega)
          exact ⟨hm, h1t, by omega, hle4⟩

/-- The outer construction loop: starting from the invariant for the
points below the current layer's insertion range, processing the layers
from `K` down to `0` yields the invariant for all `n` points. -/
lemma buildLayers_inv {n : ℕ} (D : ℕ → ℕ → ℤ) (meta : List LayerMeta)
    (efc : ℕ) (heuristic : Option Heuristic) (fuel : ℕ) (ml : ℚ)
    (hn : 1 ≤ n) (hnI : n ≤ INVALID)
    (hext : ∀ hp, heuristic = some hp → hp.extend_candidates = false)
    (hchain : chainOk ml n meta) :
    ∀ K, K < meta.length →
      ∀ (st : BuildState) (pool : List (Search × Search)),
      GraphInv n (fun x => x < (metaPoints meta K).1) st →
      GraphInv n (fun x => x < n)
        (buildLayers D meta efc heuristic fuel
          ((List.range (K + 1)).reverse) st pool).1 := by
  obtain ⟨hhead, hstep, hlast, hbound⟩ := chainOk_facts ml meta n hn hchain
  have hrange : ∀ K : ℕ, (List.range (K + 1)).reverse = K :: (List.range K).reverse := by
    intro K
    rw [List.range_succ, List.reverse_append]
    rfl
  have hpts : ∀ K, K < meta.length → (metaPoints meta K).1 =
      max (nextCount ml (meta.getD K default).total) 1 ∧
      (metaPoints meta K).2 = (meta.getD K default).total := by
    intro K hK
    obtain ⟨hm, h1t, -, hle4⟩ := hbound K hK
    refine ⟨?_, rfl⟩
    unfold metaPoints
    simp only
    rw [hm]
    congr 1
    omega
  intro K
  induction K with
  | zero =>
    intro hK st pool hinv
    rw [hrange 0]
    simp only [buildLayers, List.range_zero, List.reverse_nil, if_pos rfl]
    obtain ⟨ha, hb⟩ := hpts 0 hK
    obtain ⟨-, h1t, -, hle4⟩ := hbound 0 hK
    have hle2 : nextCount ml n ≤ n := by
      rw [hhead] at hle4
      exact hle4
    have hstep2 := insertLayerPoints_inv D meta efc heuristic fuel 0 hext hnI
      ((metaPoints meta 0).2 - (metaPoints meta 0).1) (metaPoints meta 0).1
      st pool (by rw [ha]; omega)
      (by rw [ha, hb, hhead]; omega) hinv
    refine GraphInv_congr hstep2 ?_
    intro x
    rw [ha, hb, hhead]
    omega
  | succ K' ih =>
    intro hK st pool hinv
    rw [hrange (K' + 1)]
    simp only [buildLayers]
    rw [if_neg (by omega)]
    obtain ⟨ha, hb⟩ := hpts (K' + 1) hK
    obtain ⟨-, h1t, hle, hle4⟩ := hbound (K' + 1) hK
    have hstep2 := insertLayerPoints_inv D meta efc heuristic fuel (K' + 1) hext
      hnI ((metaPoints meta (K' + 1)).2 - (metaPoints meta (K' + 1)).1)
      (metaPoints meta (K' + 1)).1 st pool (by rw [ha]; omega)
      (by rw [ha, hb]; omega) hinv
    have hinvb : GraphInv n (fun x => x < (metaPoints meta (K' + 1)).2)
        (insertLayerPoints D meta efc heuristic fuel (K' + 1)
          (List.range' (metaPoints meta (K' + 1)).1
            ((metaPoints meta (K' + 1)).2 - (metaPoints meta (K' + 1)).1))
          st pool).1 := by
      refine GraphInv_congr hstep2 ?_
      intro x
      rw [ha, hb]
      omega
    have hnextK : (metaPoints meta K').1 = (metaPoints meta (K' + 1)).2 := by
      obtain ⟨haK, -⟩ := hpts K' (by omega)
      obtain ⟨hrec, hnz⟩ := hstep K' hK
      rw [haK, hb, ← hrec]
      have h1t' : 1 ≤ (meta.getD (K' + 1) default).total := h1t
      omega
    refine ih (by omega) _ _ ?_
    rw [hnextK]
    exact GraphInv_snapshot hinvb (K' + 1) (metaPoints meta (K' + 1)).2

lemma isValid_INVALID : isValid INVALID = false := by
  simp [isValid]

lemma nearestRow_replicate_invalid (k : ℕ) :
    nearestRow (List.replicate k INVALID) = [] := by
  unfold nearestRow
  rw [List.filter_eq_nil]
  intro e he
  rw [List.eq_of_mem_replicate he, isValid_INVALID]
  simp

lemma getD_mem_or {α : Type} (l : List α) (i : ℕ) (d : α) :
    l.getD i d = d ∨ l.getD i d ∈ l := by
  by_cases h : i < l.length
  · right
    rw [List.getD_eq_getElem l d h]
    exact List.getElem_mem h
  · left
    rw [List.getD_eq_getElem?_getD, List.getElem?_eq_none (by omega)]
    rfl

/-- The freshly allocated arena satisfies the construction invariant for
the started set `{0}`: every row of every layer is all-sentinel. -/
lemma GraphInv_init (n : ℕ) (meta : List LayerMeta) (hn : 1 ≤ n) :
    GraphInv n (fun x => x < 1)
      ⟨List.replicate n (List.replicate (M * 2) INVALID),
       (meta.drop 1).map fun r =>
         List.replicate r.total (List.replicate M INVALID)⟩ := by
  refine ⟨by simp, ?_, ?_, ?_, ?_⟩
  · intro r hr
    rw [List.eq_of_mem_replicate hr]
    exact ⟨by simp, RowOk_replicate _⟩
  · intro i e he
    unfold zeroView at he
    rcases getD_mem_or (List.replicate n (List.replicate (M * 2) INVALID)) i []
      with hk | hk
    · rw [hk] at he
      cases he
    · rw [List.eq_of_mem_replicate hk, nearestRow_replicate_invalid] at he
      cases he
  · intro lay hlay r hr
    obtain ⟨rec, -, rfl⟩ := List.mem_map.mp hlay
    rw [List.eq_of_mem_replicate hr]
    exact ⟨by simp, RowOk_replicate _⟩
  · intro j i e he
    unfold upperView at he
    simp only at he
    rcases getD_mem_or ((meta.drop 1).map fun r =>
        List.replicate r.total (List.replicate M INVALID)) j [] with hk | hk
    · rw [hk] at he
      cases he
    · obtain ⟨rec, -, hrec⟩ := List.mem_map.mp hk
      rw [← hrec] at he
      rcases getD_mem_or (List.replicate rec.total (List.replicate M INVALID))
          i [] with hk2 | hk2
      · rw [hk2] at he
        cases he
      · rw [List.eq_of_mem_replicate hk2,
          nearestRow_replicate_invalid] at he
        cases he

/-- A successful default-regime build reaches the construction invariant
for all `n` points: the returned index is made of the final build state's
zero and upper rows, and that state satisfies `GraphInv`. -/
lemma buildWithPool_graphInv (D : ℕ → ℕ → ℤ) (n : ℕ) (ml : ℚ)
    (efc efs : ℕ) (heuristic : Option Heuristic)
    (pool : List (Search × Search))
    (hn : 1 ≤ n) (hnI : n ≤ INVALID)
    (hext : ∀ hp, heuristic = some hp → hp.extend_candidates = false)
    {meta : List LayerMeta} (hmeta : Meta.new ml n = some meta) :
    ∃ st, buildWithPool D n ml efc efs heuristic pool =
        some (⟨efs, n, meta, st.zero :: st.upper⟩, List.range n) ∧
      GraphInv n (fun x => x < n) st := by
  have hchain : chainOk ml n meta := MetaNew_chainOk ml n meta hmeta
  have hne : meta ≠ [] := by
    rintro rfl
    cases hchain
  have hlenpos : 1 ≤ meta.length := List.length_pos.mpr hne
  set init : BuildState :=
    ⟨List.replicate n (List.replicate (M * 2) INVALID),
     (meta.drop 1).map fun r =>
       List.replicate r.total (List.replicate M INVALID)⟩ with hinit
  refine ⟨(buildLayers D meta efc heuristic (buildFuel n)
      (metaDescending meta) init pool).1, ?_, ?_⟩
  · unfold buildWithPool
    rw [if_neg (by omega), hmeta]
  · obtain ⟨-, -, hlast, hbound⟩ := chainOk_facts ml meta n hn hchain
    obtain ⟨hm, -, -, -⟩ := hbound (meta.length - 1) (by omega)
    have hmx : (meta.getD (meta.length - 1) default).max =
        (meta.getD (meta.length - 1) default).total := by
      rw [hm, hlast]
      omega
    have hpt1 : (metaPoints meta (meta.length - 1)).1 = 1 := by
      unfold metaPoints
      simp only
      rw [hmx]
      simp
    have hdesc : metaDescending meta =
        (List.range (meta.length - 1 + 1)).reverse := by
      unfold metaDescending
      congr 2
      omega
    rw [hdesc]
    refine buildLayers_inv D meta efc heuristic (buildFuel n) ml hn hnI
      hext hchain (meta.length - 1) (by omega) init pool ?_
    rw [hpt1]
    exact GraphInv_init n meta hn

lemma dropWhile_valid_append : ∀ (xs : List ℕ),
    (∀ x ∈ xs, isValid x = true) → ∀ k,
    (xs ++ List.replicate k INVALID).dropWhile (fun e => isValid e) =
      List.replicate k INVALID := by
  intro xs
  induction xs with
  | nil =>
    intro _ k
    rw [List.nil_append]
    cases k with
    | zero => rfl
    | succ k' =>
      rw [List.replicate_succ, List.dropWhile_cons, isValid_INVALID]
      simp [List.replicate_succ]
  | cons x xs' ih =>
    intro hv k
    rw [List.cons_append, List.dropWhile_cons,
      hv x (List.mem_cons_self x xs')]
    simp only [if_true]
    exact ih (fun y hy => hv y (List.mem_cons_of_mem x hy)) k

lemma RowOk_validThenBlank {row : List ℕ} (h : RowOk row 0) :
    validThenBlank row = true := by
  obtain ⟨xs, k, rfl, hxs, -⟩ := h
  unfold validThenBlank
  rw [dropWhile_valid_append xs hxs k, List.all_eq_true]
  intro e he
  rw [List.eq_of_mem_replicate he, isValid_INVALID]
  rfl

/-- Claim C1, amended: after every successful default-regime build
(`0 < ml < 1`, at most `u32::MAX` points, heuristic with
`extend_candidates` off — the default configuration included), every
neighbor row of every layer is neighbor `PointId`s followed only by
invalid sentinels. The claim's second half — distances non-decreasing in
row order — is false (see the counterexample): `keep_pruned` re-appends
pruned candidates after the admitted ones, so a heuristic-selected row
need not be sorted by distance. -/
theorem C1_row_layout (D : ℕ → ℕ → ℤ) (n : ℕ) (ml : ℚ) (efc efs : ℕ)
    (heuristic : Option Heuristic) (hw : Hnsw) (rm : List ℕ)
    (h0 : 0 < ml) (h1 : ml < 1) (hnI : n ≤ INVALID)
    (hext : ∀ hp, heuristic = some hp → hp.extend_candidates = false)
    (hb : build D n ml efc efs heuristic = some (hw, rm)) :
    hw.layers.all (fun layer => layer.all fun row => validThenBlank row) =
      true := by
  by_cases hn : n = 0
  · subst hn
    unfold build buildWithPool at hb
    rw [if_pos rfl] at hb
    simp only [Option.some.injEq, Prod.mk.injEq] at hb
    rw [← hb.1]
    rfl
  · have hmeta : ∃ meta, Meta.new ml n = some meta := by
      rcases hme : Meta.new ml n with _ | meta
      · exfalso
        unfold build buildWithPool at hb
        rw [if_neg hn, hme] at hb
        exact Option.noConfusion hb
      · exact ⟨meta, rfl⟩
    obtain ⟨meta, hme⟩ := hmeta
    obtain ⟨st, heq, hinv⟩ := buildWithPool_graphInv D n ml efc efs
      heuristic [] (by omega) hnI hext hme
    unfold build at hb
    rw [heq] at hb
    simp only [Option.some.injEq, Prod.mk.injEq] at hb
    rw [← hb.1]
    simp only [List.all_eq_true]
    intro layer hlayer row hrow
    rcases List.mem_cons.mp hlayer with rfl | hlayer
    · exact RowOk_validThenBlank (hinv.zrow row hrow).2
    · exact RowOk_validThenBlank (hinv.urow layer hlayer row hrow).2

/-- Witness for `C1_row_layout`: the one-point build at `ml = 1/2`. -/
theorem C1_row_layout_witness :
    (Hnsw.mk 5 1 [⟨1, 1, 0, 64⟩]
      [[List.replicate 64 INVALID]]).layers.all
      (fun layer => layer.all fun row => validThenBlank row) = true :=
  C1_row_layout DC1 1 (mkRat 1 2) 5 5 none _ [0] (by norm_num)
    (by norm_num) (by norm_num [INVALID]) (fun hp h => by cases h)
    (by decide)

lemma push_ef (s : Search) (pid : ℕ) (qd : ℕ → ℤ) :
    (s.push pid qd).ef = s.ef := by
  unfold Search.push
  split
  · rfl
  · simp only
    split
    · rfl
    · split
      · rfl
      · rfl

lemma foldl_push_ef (qd : ℕ → ℤ) : ∀ (l : List ℕ) (s : Search),
    (l.foldl (fun st pid => st.push pid qd) s).ef = s.ef := by
  intro l
  induction l with
  | nil => intro s; rfl
  | cons x xs ih =>
    intro s
    rw [List.foldl_cons, ih, push_ef]

lemma searchLayer_ef (qd : ℕ → ℤ) (view : ℕ → List ℕ) (links : ℕ) :
    ∀ (fuel : ℕ) (s : Search),
      (Search.searchLayer qd view links fuel s).ef = s.ef := by
  intro fuel
  induction fuel with
  | zero => intro s; rfl
  | succ fuel ih =>
    intro s
    obtain ⟨v, cs, ns, ef⟩ := s
    cases cs with
    | nil => rw [searchLayer_nil]
    | cons c rest =>
      rw [searchLayer_succ_cons]
      rcases hlast : ns.getLast? with - | furthest
      · simp only
        rw [ih]
        exact foldl_push_ef qd _ _
      · simp only
        split
        · rfl
        · rw [ih]
          exact foldl_push_ef qd _ _

lemma insertDescend_ef (D : ℕ → ℕ → ℤ) (st : BuildState)
    (efc p L num fuel : ℕ) :
    ∀ curs, curs ≠ [] → ∀ s : Search,
      (insertDescend D st efc p L num fuel curs s).ef = efc ∨
      (insertDescend D st efc p L num fuel curs s).ef = 1 := by
  intro curs
  induction curs with
  | nil =>
    intro h
    exact absurd rfl h
  | cons cur rest ih =>
    intro _ s
    simp only [insertDescend]
    by_cases hc : L < cur
    · rw [if_pos hc]
      by_cases hr : rest = []
      · subst hr
        right
        show (insertDescend D st efc p L num fuel [] _).ef = 1
        show (Search.cull _).ef = 1
        show (Search.searchLayer _ _ _ _ _).ef = 1
        rw [searchLayer_ef]
        show (if cur ≤ L then efc else 1) = 1
        rw [if_neg (by omega)]
      · exact ih hr _
    · rw [if_neg hc]
      left
      rw [searchLayer_ef]
      show (if cur ≤ L then efc else 1) = efc
      rw [if_pos (by omega)]

lemma insertDescend_irrel (D : ℕ → ℕ → ℤ) (st : BuildState)
    (efc p L num fuel cur : ℕ) (rest : List ℕ) (v : List ℕ)
    (cs ns : List Candidate) (e1 e2 : ℕ) :
    insertDescend D st efc p L num fuel (cur :: rest) ⟨v, cs, ns, e1⟩ =
    insertDescend D st efc p L num fuel (cur :: rest) ⟨v, cs, ns, e2⟩ := rfl

/-- After `reset`, pushing the enter point produces the same seeded state
for every scratch with `ef ≥ 1` — only the carried-over `ef` field
differs. -/
lemma reset_push_core (s : Search) (qd : ℕ → ℤ) (h : 1 ≤ s.ef) :
    s.reset.push 0 qd = ⟨[0], [⟨qd 0, 0⟩], [⟨qd 0, 0⟩], s.ef⟩ := by
  unfold Search.reset Search.push
  rw [if_neg (List.not_mem_nil 0)]
  simp only
  rw [if_neg (List.not_mem_nil _)]
  simp only [List.countP_nil]
  rw [if_pos (by omega)]
  rfl

lemma add_neighbor_eq (s t : Search) (D : ℕ → ℕ → ℤ) (new : ℕ)
    (current : List ℕ) (q : ℕ) (view : ℕ → List ℕ) (params : Heuristic)
    (h : s.ef = t.ef) :
    s.add_neighbor_heuristic D new current q view params =
    t.add_neighbor_heuristic D new current q view params := by
  unfold Search.add_neighbor_heuristic
  have hr : s.reset = t.reset := by
    unfold Search.reset
    rw [h]
  rw [hr]

lemma insertFoundLoop_fst (D : ℕ → ℕ → ℤ) (heuristic : Option Heuristic)
    (p : ℕ) : ∀ (pairs : List (ℕ × Candidate)) (st : BuildState)
    (ins1 ins2 : Search), ins1.ef = ins2.ef →
    (insertFoundLoop D heuristic p pairs st ins1).1 =
    (insertFoundLoop D heuristic p pairs st ins2).1 := by
  intro pairs
  induction pairs with
  | nil =>
    intro st ins1 ins2 _
    cases heuristic <;> rfl
  | cons pr rest ih =>
    intro st ins1 ins2 h
    obtain ⟨i, c⟩ := pr
    cases heuristic with
    | none =>
      simp only [insertFoundLoop]
      exact ih _ _ _ h
    | some hp =>
      simp only [insertFoundLoop]
      rw [add_neighbor_eq ins1 ins2 D p (nearestRow (zeroView st c.pid))
        c.pid (zeroView st) hp h]

lemma metaLoop_ne_nil (ml : ℚ) : ∀ (fuel num nb : ℕ)
    (inner out : List LayerMeta),
    metaLoop ml fuel num nb inner = some out → out ≠ [] := by
  intro fuel
  induction fuel with
  | zero =>
    intro num nb inner out h
    cases h
  | succ fuel ih =>
    intro num nb inner out h
    rw [metaLoop] at h
    by_cases hz : nextCount ml num = 0
    · rw [if_pos hz] at h
      obtain rfl := Option.some.inj h
      simp
    · rw [if_neg hz] at h
      exact ih _ _ _ _ h

lemma MetaNew_ne_nil (ml : ℚ) (n : ℕ) (meta : List LayerMeta)
    (h : Meta.new ml n = some meta) : meta ≠ [] :=
  metaLoop_ne_nil ml (n + 1) n 0 [] meta h

lemma select_heuristic_ef (s : Search) (D : ℕ → ℕ → ℤ) (qd : ℕ → ℤ)
    (view : ℕ → List ℕ) (params : Heuristic) :
    (s.select_heuristic D qd view params).ef = s.ef := rfl

lemma insertPoint_fst_eq (D : ℕ → ℕ → ℤ) (meta : List LayerMeta)
    (efc : ℕ) (heuristic : Option Heuristic) (fuel : ℕ) (st : BuildState)
    (p L : ℕ) (pr1 pr2 : Search × Search)
    (hm : metaDescending meta ≠ []) (h1 : 1 ≤ pr1.1.ef)
    (h2 : 1 ≤ pr2.1.ef) :
    (insertPoint D meta efc heuristic fuel st p L pr1).1 =
    (insertPoint D meta efc heuristic fuel st p L pr2).1 := by
  have hsearch : insertDescend D st efc p L (insertNum L) fuel
      (metaDescending meta) ((pr1.1.reset).push 0 (D p)) =
      insertDescend D st efc p L (insertNum L) fuel
      (metaDescending meta) ((pr2.1.reset).push 0 (D p)) := by
    rw [reset_push_core pr1.1 (D p) h1, reset_push_core pr2.1 (D p) h2]
    rcases hcurs : metaDescending meta with - | ⟨cur, rest⟩
    · exact absurd hcurs hm
    · exact insertDescend_irrel D st efc p L (insertNum L) fuel cur rest
        _ _ _ _ _
  cases heuristic with
  | none =>
    simp only [insertPoint]
    rw [hsearch]
    exact insertFoundLoop_fst D none p _ st _ _ rfl
  | some hp =>
    simp only [insertPoint]
    rw [hsearch]
    exact insertFoundLoop_fst D (some hp) p _ st _ _ rfl

lemma insertPoint_ret_ef (D : ℕ → ℕ → ℤ) (meta : List LayerMeta)
    (efc : ℕ) (heuristic : Option Heuristic) (fuel : ℕ) (st : BuildState)
    (p L : ℕ) (pr : Search × Search)
    (hm : metaDescending meta ≠ []) (hefc : 1 ≤ efc) :
    1 ≤ (insertPoint D meta efc heuristic fuel st p L pr).2.1.ef := by
  have hd := insertDescend_ef D st efc p L (insertNum L) fuel
    (metaDescending meta) hm ((pr.1.reset).push 0 (D p))
  cases heuristic with
  | none =>
    simp only [insertPoint]
    rcases hd with hd | hd <;> rw [hd] <;> omega
  | some hp =>
    simp only [insertPoint]
    rw [select_heuristic_ef]
    rcases hd with hd | hd <;> rw [hd] <;> omega

lemma poolPop_ok {pool : List (Search × Search)} (h : PoolOk pool) :
    1 ≤ (poolPop pool).1.1.ef ∧ PoolOk (poolPop pool).2 := by
  cases pool with
  | nil =>
    exact ⟨le_refl 1, fun q hq => absurd hq (List.not_mem_nil q)⟩
  | cons x xs =>
    exact ⟨h x (List.mem_cons_self x xs),
      fun q hq => h q (List.mem_cons_of_mem x hq)⟩

lemma insertLayerPoints_poolOk (D : ℕ → ℕ → ℤ) (meta : List LayerMeta)
    (efc : ℕ) (heuristic : Option Heuristic) (fuel L : ℕ)
    (hm : metaDescending meta ≠ []) (hefc : 1 ≤ efc) :
    ∀ (pids : List ℕ) (st : BuildState) (pool : List (Search × Search)),
      PoolOk pool →
      PoolOk (insertLayerPoints D meta efc heuristic fuel L pids st pool).2 := by
  intro pids
  induction pids with
  | nil =>
    intro st pool h
    exact h
  | cons p ps ih =>
    intro st pool h
    simp only [insertLayerPoints]
    apply ih
    intro q hq
    rcases List.mem_cons.mp hq with rfl | hq
    · exact insertPoint_ret_ef D meta efc heuristic fuel st p L
        (poolPop pool).1 hm hefc
    · exact (poolPop_ok h).2 q hq

lemma insertLayerPoints_fst_eq (D : ℕ → ℕ → ℤ) (meta : List LayerMeta)
    (efc : ℕ) (heuristic : Option Heuristic) (fuel L : ℕ)
    (hm : metaDescending meta ≠ []) (hefc : 1 ≤ efc) :
    ∀ (pids : List ℕ) (st : BuildState)
      (pool1 pool2 : List (Search × Search)),
      PoolOk pool1 → PoolOk pool2 →
      (insertLayerPoints D meta efc heuristic fuel L pids st pool1).1 =
      (insertLayerPoints D meta efc heuristic fuel L pids st pool2).1 := by
  intro pids
  induction pids with
  | nil =>
    intro st pool1 pool2 _ _
    rfl
  | cons p ps ih =>
    intro st pool1 pool2 h1 h2
    simp only [insertLayerPoints]
    have heq := insertPoint_fst_eq D meta efc heuristic fuel st p L
      (poolPop pool1).1 (poolPop pool2).1 hm (poolPop_ok h1).1
      (poolPop_ok h2).1
    rw [heq]
    refine ih _ _ _ ?_ ?_
    · intro q hq
      rcases List.mem_cons.mp hq with rfl | hq
      · exact insertPoint_ret_ef D meta efc heuristic fuel st p L
          (poolPop pool1).1 hm hefc
      · exact (poolPop_ok h1).2 q hq
    · intro q hq
      rcases List.mem_cons.mp hq with rfl | hq
      · exact insertPoint_ret_ef D meta efc heuristic fuel st p L
          (poolPop pool2).1 hm hefc
      · exact (poolPop_ok h2).2 q hq

lemma buildLayers_fst_eq (D : ℕ → ℕ → ℤ) (meta : List LayerMeta)
    (efc : ℕ) (heuristic : Option Heuristic) (fuel : ℕ)
    (hm : metaDescending meta ≠ []) (hefc : 1 ≤ efc) :
    ∀ (curs : List ℕ) (st : BuildState)
      (pool1 pool2 : List (Search × Search)),
      PoolOk pool1 → PoolOk pool2 →
      (buildLayers D meta efc heuristic fuel curs st pool1).1 =
      (buildLayers D meta efc heuristic fuel curs st pool2).1 := by
  intro curs
  induction curs with
  | nil =>
    intro st pool1 pool2 _ _
    rfl
  | cons L rest ih =>
    intro st pool1 pool2 h1 h2
    simp only [buildLayers]
    have heq := insertLayerPoints_fst_eq D meta efc heuristic fuel L hm hefc
      (List.range' (metaPoints meta L).1
        ((metaPoints meta L).2 - (metaPoints meta L).1)) st pool1 pool2 h1 h2
    by_cases hL : L = 0
    · subst hL
      rw [if_pos rfl, if_pos rfl]
      exact heq
    · rw [if_neg hL, if_neg hL, heq]
      exact ih _ _ _
        (insertLayerPoints_poolOk D meta efc heuristic fuel L hm hefc _ _ _ h1)
        (insertLayerPoints_poolOk D meta efc heuristic fuel L hm hefc _ _ _ h2)

/-- Claim C7: the construction is deterministic — the built index does not
depend on the scratch pool's prior contents (so two builds of the same
input, each with its own pool, return byte-identical meta records and
neighbor rows). The model runs the source's serialized insertion loop, so
thread interleaving is out of scope by the claim's own proviso. Scratch
pools are constrained to `ef ≥ 1` entries, which every pool the source
creates satisfies (`Search::default` has `ef = 1` and every returned
scratch was last used with `ef ≥ 1`); `ef_construction ≥ 1` likewise
holds for every configuration the builder accepts (default `100`). -/
theorem C7_build_deterministic (D : ℕ → ℕ → ℤ) (n : ℕ) (ml : ℚ)
    (efc efs : ℕ) (heuristic : Option Heuristic)
    (pool1 pool2 : List (Search × Search)) (hefc : 1 ≤ efc)
    (h1 : PoolOk pool1) (h2 : PoolOk pool2) :
    buildWithPool D n ml efc efs heuristic pool1 =
    buildWithPool D n ml efc efs heuristic pool2 := by
  unfold buildWithPool
  by_cases hn : n = 0
  · rw [if_pos hn, if_pos hn]
  · rw [if_neg hn, if_neg hn]
    rcases hmeta : Meta.new ml n with - | meta
    · rfl
    · simp only
      have hne : meta ≠ [] := MetaNew_ne_nil ml n meta hmeta
      have hm : metaDescending meta ≠ [] := by
        unfold metaDescending
        simp only [ne_eq, List.reverse_eq_nil_iff, List.range_eq_nil]
        intro habs
        exact hne (List.length_eq_zero.mp habs)
      rw [buildLayers_fst_eq D meta efc heuristic (buildFuel n) hm hefc
        (metaDescending meta) _ pool1 pool2 h1 h2]

/-- Witness for `C7_build_deterministic`: an empty pool against a pool
holding a dirty scratch pair. -/
theorem C7_build_deterministic_witness :
    buildWithPool DC1 1 mlDef 10 10 none [] =
    buildWithPool DC1 1 mlDef 10 10 none
      [(Search.mk [5] [⟨3, 7⟩] [] 2, Search.mk [9] [] [] 0)] :=
  C7_build_deterministic DC1 1 mlDef 10 10 none _ _ (by omega)
    (fun q hq => absurd hq (List.not_mem_nil q))
    (by
      intro q hq
      rcases List.mem_cons.mp hq with rfl | hq
      · decide
      · cases hq)

lemma searchDescend_nearest (h : Hnsw) (qd : ℕ → ℤ) (fuel : ℕ) :
    ∀ (curs : List ℕ) (v : List ℕ) (cs ns : List Candidate) (e1 e2 : ℕ),
      (searchDescend h qd fuel curs ⟨v, cs, ns, e1⟩).nearest =
      (searchDescend h qd fuel curs ⟨v, cs, ns, e2⟩).nearest := by
  intro curs
  cases curs with
  | nil =>
    intro v cs ns e1 e2
    rfl
  | cons cur rest =>
    intro v cs ns e1 e2
    rfl

/-- Claim C8, amended: `Hnsw::search` returns the same result sequence for
any two scratches whose `ef` field is at least `1` — in particular for
fresh (`Search::default`, `ef = 1`) scratches and for any scratch a prior
search left behind with `ef_search ≥ 1`. `reset` clears everything except
`ef`, and the seed push reads `ef` before the descent overwrites it, so a
scratch with `ef = 0` loses the enter point and the claim's "any prior
scratch state" is false (see the counterexample). -/
theorem C8_search_scratch_independent (h : Hnsw) (qd : ℕ → ℤ)
    (s1 s2 : Search) (fuel : ℕ) (he1 : 1 ≤ s1.ef) (he2 : 1 ≤ s2.ef) :
    h.search qd s1 fuel = h.search qd s2 fuel := by
  unfold Hnsw.search
  by_cases hn : h.n = 0
  · rw [if_pos hn, if_pos hn]
    rfl
  · rw [if_neg hn, if_neg hn]
    rw [reset_push_core s1 qd he1, reset_push_core s2 qd he2]
    exact searchDescend_nearest h qd fuel (metaDescending h.meta)
      _ _ _ _ _

/-- Witness for `C8_search_scratch_independent`: a dirty `ef = 2` scratch
against a fresh one, on a one-point index. -/
theorem C8_search_scratch_independent_witness :
    Hnsw.search
      (Hnsw.mk 100 1 [⟨1, 1, 0, 64⟩] [[List.replicate 64 INVALID]])
      (fun _ => (0 : ℤ)) (Search.mk [3] [] [] 2) 3 =
    Hnsw.search
      (Hnsw.mk 100 1 [⟨1, 1, 0, 64⟩] [[List.replicate 64 INVALID]])
      (fun _ => (0 : ℤ)) Search.mk0 3 :=
  C8_search_scratch_independent _ _ _ _ 3 (by decide) (by decide)

/-- Counterexample to C8's "in any prior scratch state": on the
default-configuration one-point build, a scratch whose `ef` field is `0`
returns the empty result while a fresh scratch returns the enter point —
`reset` does not restore `ef`, and `push` drops the seed when
`nearest.len() < ef` fails. -/
theorem C8_counterexample :
    (build DC1 1 mlDef 100 100 (some Heuristic.default0)).map
      (fun r => decide (r.1.search (DC1 0) (Search.mk [] [] [] 0)
        (buildFuel 1) = r.1.search (DC1 0) Search.mk0 (buildFuel 1))) =
      some false := by
  decide

end HnswModel
